import Mathlib

/-!
Verification of the OCR-based inventory extraction core of the
Bishops-picker repository (a TypeScript application).  The TypeScript
functions relevant to the frozen claims are shallowly embedded here as
executable Lean definitions; machine strings are modelled as `List Char`
(wrapped into `String` at the boundaries), JavaScript numbers as `Int`/`Nat`
(the algorithms only perform exact integer arithmetic on the values that
matter, except Otsu's variance which is modelled over `ℚ`), and the
pixel buffers of the image-processing routines as functions `ℕ → ℤ`.

Each embedded definition carries a comment naming the TypeScript source
function it translates.
-/

/-! ## Character classes (JavaScript regex classes, ASCII range)

`\w` is `[A-Za-z0-9_]`; `\s` is the JS whitespace class (restricted to its
ASCII members, which are the only ones the pipeline's inputs contain). -/

def isWordChar (c : Char) : Bool :=
  c.isAlpha || c.isDigit || c = '_'

def isWsJS (c : Char) : Bool :=
  c = ' ' || c = '\t' || c = '\n' || c = '\r' || c = '\x0b' || c = '\x0c'

def quoteChar : Char := Char.ofNat 34

def apostChar : Char := Char.ofNat 39

/-- Character class `[^\w\s\-.,()&]` complement (the allow-list of
`cleanText`'s first `replace`). -/
def cleanAllowed (c : Char) : Bool :=
  isWordChar c || isWsJS c ||
    c = '-' || c = '.' || c = ',' || c = '(' || c = ')' || c = '&'

/-- Character allow-list `[\w\s\-.,()&+#'"/\\]` used by `parseDirectText`'s
line cleaning. -/
def directAllowed (c : Char) : Bool :=
  cleanAllowed c ||
    c = '+' || c = '#' || c = apostChar || c = quoteChar || c = '/' || c = '\\'

/-! ## Basic string operations on `List Char` -/

/-- `replace(/[^ALLOWED]/g, ' ')`: map every disallowed character to a
space. -/
def despecialBy (allowed : Char → Bool) (l : List Char) : List Char :=
  l.map (fun c => if allowed c then c else ' ')

/-- `replace(/\s+/g, ' ')`: collapse every run of whitespace to a single
space.  The flag records whether the previous character was part of a
whitespace run already emitted. -/
def collapseAux : Bool → List Char → List Char
  | _, [] => []
  | prev, c :: cs =>
    if isWsJS c then
      if prev then collapseAux true cs else ' ' :: collapseAux true cs
    else c :: collapseAux false cs

def collapseWs (l : List Char) : List Char := collapseAux false l

/-- `String.prototype.trim()`: drop leading and trailing whitespace. -/
def trimJS (l : List Char) : List Char :=
  ((l.dropWhile isWsJS).reverse.dropWhile isWsJS).reverse

/-- Digit-context substitution `replace(/[CC](?=\d)/g, R)`: a character
satisfying `p` that is immediately followed by a digit is replaced by `r`.
The lookahead does not consume the digit, and scanning resumes after the
replaced character, exactly as in the JS global replace. -/
def subDigitCtx (p : Char → Bool) (r : Char) : List Char → List Char
  | [] => []
  | [c] => [c]
  | c :: d :: rest =>
    if p c && d.isDigit then r :: subDigitCtx p r (d :: rest)
    else c :: subDigitCtx p r (d :: rest)

def isOChar (c : Char) : Bool := c = 'o' || c = 'O'

def isLIChar (c : Char) : Bool := c = 'l' || c = 'I'

def isSChar (c : Char) : Bool := c = 'S' || c = 's'

def isZChar (c : Char) : Bool := c = 'Z' || c = 'z'

/-- Split on newline characters, JS `split('\n')` semantics: the result is
always nonempty, and empty segments are kept. -/
def splitNl : List Char → List (List Char)
  | [] => [[]]
  | c :: cs =>
    if c = '\n' then [] :: splitNl cs
    else
      match splitNl cs with
      | [] => [[c]]
      | l :: ls => (c :: l) :: ls

/-- JS `Array.prototype.join('\n')`. -/
def joinNl : List (List Char) → List Char
  | [] => []
  | [l] => l
  | l :: ls => l ++ '\n' :: joinNl ls

/-- JS `Array.prototype.join(' ')`. -/
def joinSpace : List (List Char) → List Char
  | [] => []
  | [l] => l
  | l :: ls => l ++ ' ' :: joinSpace ls

def lowerList (l : List Char) : List Char := l.map Char.toLower

/-- `needle` occurs at the start of `hay`. -/
def hasPre : List Char → List Char → Bool
  | [], _ => true
  | _ :: _, [] => false
  | n :: ns, h :: hs => n = h && hasPre ns hs

/-- JS `String.prototype.includes`. -/
def containsSub : List Char → List Char → Bool
  | [], needle => needle.isEmpty
  | c :: cs, needle => hasPre needle (c :: cs) || containsSub cs needle

/-! ## The text normalizer `cleanText` (part_001 lines 448-463)

```
text.split('\n').map(line => line
  .replace(/[^\w\s\-.,()&]/g, ' ')
  .replace(/\s+/g, ' ')
  .replace(/[oO](?=\d)/g, '0')
  .replace(/[lI](?=\d)/g, '1')
  .replace(/[Ss](?=\d)/g, '5')
  .replace(/[Zz](?=\d)/g, '2')
  .trim())
.filter(line => line.length >= 3)
.join('\n')
```
-/

def cleanLine (l : List Char) : List Char :=
  trimJS (subDigitCtx isZChar '2' (subDigitCtx isSChar '5'
    (subDigitCtx isLIChar '1' (subDigitCtx isOChar '0'
      (collapseWs (despecialBy cleanAllowed l))))))

def cleanTextL (l : List Char) : List Char :=
  joinNl (((splitNl l).map cleanLine).filter (fun m => 3 ≤ m.length))

def cleanText (s : String) : String :=
  String.mk (cleanTextL s.data)

/-- A confusable-free two-line input used to witness the amended C4. -/
def exC4w : String := "ab  cd\nxy 12"

/-- The OCR-confusable characters that `cleanText` substitutes in digit
context. -/
def confusable (c : Char) : Bool :=
  isOChar c || isLIChar c || isSChar c || isZChar c

def exC4 : String := "SS5"

/-! ## JavaScript `parseInt` (radix unspecified)

Skips leading whitespace, accepts an optional sign, interprets a `0x`/`0X`
prefix as hexadecimal, parses the longest digit prefix and ignores the
rest; yields `none` (JS `NaN`) when no digit is found. -/

def digitsVal (l : List Char) : ℕ :=
  l.foldl (fun a c => 10 * a + (c.toNat - 48)) 0

def isHexDigit (c : Char) : Bool :=
  c.isDigit || ('a' ≤ c && c ≤ 'f') || ('A' ≤ c && c ≤ 'F')

def hexDigitVal (c : Char) : ℕ :=
  if c.isDigit then c.toNat - 48
  else if 'a' ≤ c && c ≤ 'f' then c.toNat - 87
  else c.toNat - 55

def hexVal (l : List Char) : ℕ :=
  l.foldl (fun a c => 16 * a + hexDigitVal c) 0

/-- The longest decimal-digit prefix, `none` when there is none. -/
def parseDecimal (l : List Char) : Option ℕ :=
  let ds := l.takeWhile Char.isDigit
  if ds.isEmpty then none else some (digitsVal ds)

def parseUnsigned (l : List Char) : Option ℕ :=
  if hasPre ['0', 'x'] l || hasPre ['0', 'X'] l then
    let ds := (l.drop 2).takeWhile isHexDigit
    if ds.isEmpty then none else some (hexVal ds)
  else parseDecimal l

def parseIntJS (s : String) : Option Int :=
  match s.data.dropWhile isWsJS with
  | [] => none
  | c :: rest =>
    if c = '-' then (parseUnsigned rest).map (fun n => -(n : Int))
    else if c = '+' then (parseUnsigned rest).map (fun n => (n : Int))
    else (parseUnsigned (c :: rest)).map (fun n => (n : Int))

/-- `parseInt(s) || 1`: JS `NaN` and `0` (and `-0`) are falsy, every other
number is kept. -/
def parseIntOr1 (s : String) : Int :=
  match parseIntJS s with
  | none => 1
  | some n => if n = 0 then 1 else n

/-! ## `split(/\s{2,}|\t/)` — JS split semantics, empty segments kept

A separator is a maximal whitespace run of length at least two, or a
single tab.  A single non-tab whitespace character is ordinary segment
content.  `cur` is the reversed current segment; the fuel is at least
`length + 1` so it never runs out. -/

def splitColsF : ℕ → List Char → List Char → List (List Char)
  | 0, cur, _ => [cur.reverse]
  | _ + 1, cur, [] => [cur.reverse]
  | fuel + 1, cur, c :: cs =>
    if isWsJS c then
      match cs with
      | [] => if c = '\t' then [cur.reverse, []] else [(c :: cur).reverse]
      | d :: _ =>
        if isWsJS d then
          cur.reverse :: splitColsF fuel [] ((c :: cs).dropWhile isWsJS)
        else if c = '\t' then cur.reverse :: splitColsF fuel [] cs
        else splitColsF fuel (c :: cur) cs
    else splitColsF fuel (c :: cur) cs

def splitCols (l : List Char) : List (List Char) :=
  splitColsF (l.length + 1) [] l

/-! ## `match(/(?:[^\s"]+|"[^"]*")+/g)` — quoted-phrase tokenizer

A token is a maximal sequence of units, each unit a nonempty run of
non-whitespace non-quote characters or a double-quoted chunk (quotes
included).  Positions where no unit starts are skipped. -/

def tokUnit (cs : List Char) : Option (List Char × List Char) :=
  match cs with
  | [] => none
  | c :: rest =>
    if !isWsJS c && c ≠ quoteChar then
      let run := cs.takeWhile (fun d => !isWsJS d && d ≠ quoteChar)
      some (run, cs.drop run.length)
    else if c = quoteChar then
      let body := rest.takeWhile (fun d => d ≠ quoteChar)
      match rest.drop body.length with
      | [] => none
      | _ :: rest3 => some (quoteChar :: (body ++ [quoteChar]), rest3)
    else none

def tokUnitsF : ℕ → List Char → Option (List Char × List Char)
  | 0, _ => none
  | fuel + 1, cs =>
    match tokUnit cs with
    | none => none
    | some (u, rest) =>
      match tokUnitsF fuel rest with
      | none => some (u, rest)
      | some (u2, rest2) => some (u ++ u2, rest2)

def tokensF : ℕ → List Char → List (List Char)
  | 0, _ => []
  | fuel + 1, cs =>
    match cs with
    | [] => []
    | c :: rest =>
      match tokUnitsF (fuel + 1) (c :: rest) with
      | some (u, rest2) => u :: tokensF fuel rest2
      | none => tokensF fuel rest

def tokenizeQuoted (l : List Char) : List (List Char) :=
  tokensF (l.length + 1) l

/-! ## Regex tests used by the strategies -/

/-- `[A-Z0-9-]` under the `i` flag. -/
def skuCharI (c : Char) : Bool := c.isAlpha || c.isDigit || c = '-'

/-- `[A-Z0-9-]` without the `i` flag (upper case only). -/
def skuCharU (c : Char) : Bool := c.isUpper || c.isDigit || c = '-'

/-- `/^[A-Z0-9-]+$/i.test` -/
def testSkuI (l : List Char) : Bool := !l.isEmpty && l.all skuCharI

/-- `/^[A-Z0-9-]+$/.test` (no `i` flag: `validateProduct`). -/
def testSkuU (l : List Char) : Bool := !l.isEmpty && l.all skuCharU

/-- `/^\d+$/.test` -/
def testAllDigits (l : List Char) : Bool := !l.isEmpty && l.all Char.isDigit

/-- `/^[A-Z][0-9]/.test` (prefix only, not anchored at the end). -/
def testLoc (l : List Char) : Bool :=
  match l with
  | a :: b :: _ => a.isUpper && b.isDigit
  | [a] => false && a.isUpper
  | [] => false

/-! ## The `Product` record (types.ts) and the deduplicator/validator -/

structure Product where
  id : String
  sku : String
  name : String
  category : Option String
  quantity : Int
  location : String
  imageUrl : String
  status : String
deriving DecidableEq, Repr

/-- `validateProduct` (part_001 lines 505-512). -/
def validateProduct (p : Product) : Bool :=
  decide (3 ≤ p.name.length) && decide (0 < p.quantity) && testSkuU p.sku.data
    && (decide (p.location = "") || testLoc p.location.data)

/-- The composite deduplication key `product.sku + "-" + product.name.toLowerCase()`. -/
def dedupKey (p : Product) : String :=
  p.sku ++ "-" ++ String.mk (lowerList p.name.data)

/-- The first `filter` of `removeDuplicatesAndValidate`: the `Set` of seen
keys is threaded explicitly. -/
def dedupAux (seen : List String) : List Product → List Product
  | [] => []
  | p :: ps =>
    if dedupKey p ∈ seen then dedupAux seen ps
    else p :: dedupAux (dedupKey p :: seen) ps

def removeDuplicates (l : List Product) : List Product := dedupAux [] l

/-- `removeDuplicatesAndValidate` (part_001 lines 492-502). -/
def removeDuplicatesAndValidate (l : List Product) : List Product :=
  (removeDuplicates l).filter validateProduct

/-- `` `PROD-${products.length + 1}` `` where `n` is the number of products
already accumulated. -/
def prodId (n : ℕ) : String :=
  "PROD-" ++ toString (n + 1)

/-! ## Strategy 1: `parseDirectText` (part_001 lines 731-824) -/

def itemNeedle : List Char := ['i', 't', 'e', 'm']

def skuNeedle : List Char := ['s', 'k', 'u']

def categoryNeedle : List Char := ['c', 'a', 't', 'e', 'g', 'o', 'r', 'y']

def catNeedle : List Char := ['c', 'a', 't']

def descriptionNeedle : List Char :=
  ['d', 'e', 's', 'c', 'r', 'i', 'p', 't', 'i', 'o', 'n']

def descNeedle : List Char := ['d', 'e', 's', 'c']

/-- The flexible header test of `parseDirectText` (lines 738-744). -/
def isHeaderLine (l : List Char) : Bool :=
  let low := lowerList l
  (containsSub low itemNeedle || containsSub low skuNeedle) &&
    (containsSub low categoryNeedle || containsSub low catNeedle) &&
    (containsSub low descriptionNeedle || containsSub low descNeedle)

/-- `findIndex` of a numeric column followed by `splice`: returns the first
element satisfying `p` together with the list with that element removed. -/
def extractFirst (p : List Char → Bool) :
    List (List Char) → Option (List Char × List (List Char))
  | [] => none
  | x :: xs =>
    if p x then some (x, xs)
    else
      match extractFirst p xs with
      | some (y, ys) => some (y, x :: ys)
      | none => none

/-- `replace(/"/g, '')` -/
def removeQuotes (l : List Char) : List Char :=
  l.filter (fun c => c ≠ quoteChar)

/-- The `sellingUnit` chosen by `parseDirectText`: the first purely
numeric column when one exists, else the default `'1'`. -/
def directQuantitySrc (cols : List (List Char)) : List Char :=
  match extractFirst testAllDigits cols with
  | some (u, _) => u
  | none => ['1']

/-- The column list after `splice`-ing out the numeric column, when one
exists. -/
def directRest (cols : List (List Char)) : List (List Char) :=
  match extractFirst testAllDigits cols with
  | some (_, rest) => rest
  | none => cols

/-- One iteration of `parseDirectText`'s line loop (lines 751-820); `n` is
the number of products accumulated so far. -/
def directLine (n : ℕ) (l : List Char) : Option Product :=
  let line := trimJS l
  if line.length < 3 then none
  else
    let cleaned := trimJS (collapseWs (despecialBy directAllowed line))
    let cols0 := splitCols cleaned
    let cols1 := if cols0.length < 3 then tokenizeQuoted cleaned else cols0
    let itemTaken : Bool :=
      match cols1 with
      | [] => false
      | c :: _ => !c.isEmpty && testSkuI c
    let item := if itemTaken then cols1.getD 0 [] else []
    let cols2 := if itemTaken then cols1.drop 1 else cols1
    let sellingUnit := directQuantitySrc cols2
    let cols3 := directRest cols2
    let catTaken : Bool := decide (2 ≤ cols3.length) && decide ((cols3.getD 0 []).length < 20)
    let category := if catTaken then cols3.getD 0 [] else []
    let cols4 := if catTaken then cols3.drop 1 else cols3
    let description := trimJS (removeQuotes (joinSpace cols4))
    if !item.isEmpty && !description.isEmpty then
      some { id := prodId n, sku := String.mk item, name := String.mk description,
             category := some (String.mk category),
             quantity := parseIntOr1 (String.mk sellingUnit),
             location := "", imageUrl := "", status := "pending" }
    else none

def directLoop (n : ℕ) : List (List Char) → List Product
  | [] => []
  | l :: ls =>
    match directLine n l with
    | some p => p :: directLoop (n + 1) ls
    | none => directLoop n ls

def parseDirectText (text : String) : List Product :=
  let lines := splitNl text.data
  let start := match lines.findIdx? isHeaderLine with
    | some i => i + 1
    | none => 0
  directLoop 0 (lines.drop start)

/-! ## Strategy 2: `parseStructuredText` (part_001 lines 826-848)

The pattern `/^([A-Z0-9-]+)\s+(.+?)\s+(\d+)\s+([A-Z][0-9][-]?[A-Z][0-9]|[A-Z]{1,2}[-]?[0-9]{1,3})/i`
is embedded as an explicit backtracking search: every quantifier
contributes its candidate splits in JS preference order (greedy = longest
first, lazy = shortest first, `?` = present first), alternatives are tried
left to right, and the first overall success wins — the innermost choice
point varies fastest, as in the JS engine. -/

def greedyOpts (p : Char → Bool) (cs : List Char) : List (List Char × List Char) :=
  let r := cs.takeWhile p
  (List.range r.length).map (fun k =>
    (cs.take (r.length - k), cs.drop (r.length - k)))

/-- Candidate splits for `(.+?)` (dot excludes newline), shortest first. -/
def lazyOpts (cs : List Char) : List (List Char × List Char) :=
  let m := (cs.takeWhile (fun c => c ≠ '\n')).length
  (List.range m).map (fun k => (cs.take (k + 1), cs.drop (k + 1)))

/-- `[-]?[0-9]{1,3}` (value part of the second location alternative). -/
def digits1to3 (cs : List Char) : Option (List Char) :=
  let ds := (cs.takeWhile Char.isDigit).take 3
  if ds.isEmpty then none else some ds

def locDigits (cs : List Char) : Option (List Char) :=
  match cs with
  | '-' :: rest => ((digits1to3 rest).map (fun ds => '-' :: ds)).orElse
      (fun _ => digits1to3 cs)
  | _ => digits1to3 cs

/-- `[A-Z][0-9][-]?[A-Z][0-9]` under `i` — the tail after the first
letter-digit pair tries the optional hyphen first. -/
def locTail1 (rest : List Char) : Option (List Char) :=
  (match rest with
   | '-' :: c :: d :: _ =>
     if c.isAlpha && d.isDigit then some ['-', c, d] else none
   | _ => none).orElse (fun _ =>
    match rest with
    | c :: d :: _ => if c.isAlpha && d.isDigit then some [c, d] else none
    | _ => none)

def matchLoc1 (cs : List Char) : Option (List Char) :=
  match cs with
  | a :: b :: rest =>
    if a.isAlpha && b.isDigit then (locTail1 rest).map (fun t => a :: b :: t)
    else none
  | _ => none

/-- `[A-Z]{1,2}[-]?[0-9]{1,3}` under `i`: two letters preferred over one. -/
def matchLoc2 (cs : List Char) : Option (List Char) :=
  match cs with
  | a :: rest =>
    if a.isAlpha then
      (match rest with
       | b :: rest2 =>
         if b.isAlpha then (locDigits rest2).map (fun t => a :: b :: t) else none
       | [] => none).orElse (fun _ => (locDigits rest).map (fun t => a :: t))
    else none
  | [] => none

def matchLoc (cs : List Char) : Option (List Char) :=
  (matchLoc1 cs).orElse (fun _ => matchLoc2 cs)

def matchStructured (cs : List Char) :
    Option (List Char × List Char × List Char × List Char) :=
  (greedyOpts skuCharI cs).findSome? (fun su =>
    (greedyOpts isWsJS su.2).findSome? (fun w1 =>
      (lazyOpts w1.2).findSome? (fun nm =>
        (greedyOpts isWsJS nm.2).findSome? (fun w2 =>
          (greedyOpts Char.isDigit w2.2).findSome? (fun dg =>
            (greedyOpts isWsJS dg.2).findSome? (fun w3 =>
              (matchLoc w3.2).map (fun loc => (su.1, nm.1, dg.1, loc))))))))

def structLoop (n : ℕ) : List (List Char) → List Product
  | [] => []
  | l :: ls =>
    match matchStructured l with
    | some (sk, nm, dg, loc) =>
      { id := prodId n, sku := String.mk sk, name := String.mk (trimJS nm),
        category := none, quantity := parseIntOr1 (String.mk dg),
        location := String.mk loc, imageUrl := "", status := "pending" }
        :: structLoop (n + 1) ls
    | none => structLoop n ls

def parseStructuredText (text : String) : List Product :=
  structLoop 0 (splitNl text.data)

/-! ## Strategy 3: `parseTableFormat` (part_001 lines 850-873) -/

def tableLine (n : ℕ) (l : List Char) : Option Product :=
  let cols := splitCols l
  if 3 ≤ cols.length then
    some { id := prodId n, sku := String.mk (trimJS (cols.getD 0 [])),
           name := String.mk (trimJS (cols.getD 1 [])),
           category := none,
           quantity := parseIntOr1 (String.mk (cols.getD 2 [])),
           location := String.mk (match cols.get? 3 with
             | some c => trimJS c
             | none => []),
           imageUrl := "", status := "pending" }
  else none

def tableLoop (n : ℕ) : List (List Char) → List Product
  | [] => []
  | l :: ls =>
    match tableLine n l with
    | some p => p :: tableLoop (n + 1) ls
    | none => tableLoop n ls

def parseTableFormat (text : String) : List Product :=
  let lines := splitNl text.data
  let rest :=
    if containsSub (lowerList (lines.getD 0 [])) skuNeedle then lines.drop 1
    else lines
  tableLoop 0 rest

/-! ## Strategy 4: `parseWithContextLines` (part_001 lines 875-903) -/

/-- `String.prototype.replace(needle, '')`: remove the first occurrence of
`needle` (no-op insertion for the empty needle). -/
def removeFirst : List Char → List Char → List Char
  | [], _ => []
  | c :: cs, needle =>
    if hasPre needle (c :: cs) then (c :: cs).drop needle.length
    else c :: removeFirst cs needle

def mkCtx (n : ℕ) (sku nm : List Char) : Product :=
  { id := prodId n, sku := String.mk sku, name := String.mk nm,
    category := none, quantity := 1, location := "", imageUrl := "",
    status := "pending" }

/-- The line loop of `parseWithContextLines`: when a record is pushed the
next line is consumed as well (`i++` inside the loop body). -/
def ctxLoop (n : ℕ) : List (List Char) → List Product
  | [] => []
  | l :: rest =>
    let current := trimJS l
    let sku := current.takeWhile skuCharU
    match rest with
    | [] =>
      if sku.isEmpty then []
      else
        let nm := trimJS (removeFirst current sku)
        if 3 ≤ nm.length then [mkCtx n sku nm] else []
    | r :: rs =>
      if sku.isEmpty then ctxLoop n (r :: rs)
      else
        let next := trimJS r
        let nm := if 0 < next.length then next else trimJS (removeFirst current sku)
        if 3 ≤ nm.length then mkCtx n sku nm :: ctxLoop (n + 1) rs
        else ctxLoop n (r :: rs)

def parseWithContextLines (text : String) : List Product :=
  ctxLoop 0 (splitNl text.data)

/-! ## `parseWithMultipleStrategies` (part_001 lines 466-489) and the
image-path extraction stage of `parseImage` (lines 906-947) -/

/-- The concatenation of the four strategies' results in their fixed
execution order (the `length > 0` guard before each `push(...spread)` is
equivalent to plain concatenation). -/
def allCandidates (text : String) : List Product :=
  parseDirectText text ++ parseStructuredText text ++
    parseTableFormat text ++ parseWithContextLines text

def parseWithMultipleStrategies (text : String) : List Product :=
  removeDuplicatesAndValidate (allCandidates text)

/-- The text-processing stage of `parseImage` applied to the recognized
text: trim lines, keep lines longer than 3 characters, rejoin, and parse
with `parseDirectText` only. -/
def parseImageText (text : String) : List Product :=
  parseDirectText (String.mk (joinNl
    (((splitNl text.data).map trimJS).filter (fun l => 3 < l.length))))

/-! ## Otsu threshold (Scanner.tsx lines 390-426, `calculateOtsuThreshold`)

The histogram loop is embedded as a fold over `List.range 256` with an
explicit state; `continue` (empty background) and `break` (empty
foreground) are modelled by the `wB = 0` branch and the `done` flag.
Means and variances are exact rationals. -/

structure OtsuState where
  wB : ℕ
  sumB : ℕ
  maxVar : ℚ
  thr : ℕ
  done : Bool
deriving Repr

/-- `wB * wF * (mB - mF)^2` with `mB = sumB/wB`, `mF = (sum - sumB)/wF`. -/
def otsuVariance (wB wF sumB sum : ℕ) : ℚ :=
  (wB : ℚ) * (wF : ℚ) *
    (((sumB : ℚ) / (wB : ℚ) - ((sum : ℚ) - (sumB : ℚ)) / (wF : ℚ)) *
     ((sumB : ℚ) / (wB : ℚ) - ((sum : ℚ) - (sumB : ℚ)) / (wF : ℚ)))

def otsuStep (h : ℕ → ℕ) (total sum : ℕ) (s : OtsuState) (i : ℕ) : OtsuState :=
  if s.done then s
  else
    let wB := s.wB + h i
    if wB = 0 then { s with wB := wB }
    else
      let wF := total - wB
      if wF = 0 then { s with wB := wB, done := true }
      else
        let sumB := s.sumB + i * h i
        let v := otsuVariance wB wF sumB sum
        if s.maxVar < v then ⟨wB, sumB, v, i, false⟩
        else ⟨wB, sumB, s.maxVar, s.thr, false⟩

def otsuInit : OtsuState := ⟨0, 0, 0, 0, false⟩

/-- `histogram[pixel]++` over the data array. -/
def otsuHist (data : List ℕ) (i : ℕ) : ℕ := data.count i

/-- `sum += i * histogram[i]` over the 256 bins. -/
def otsuSum (h : ℕ → ℕ) : ℕ := ∑ i in Finset.range 256, i * h i

def otsuRun (h : ℕ → ℕ) (total sum : ℕ) : OtsuState :=
  (List.range 256).foldl (otsuStep h total sum) otsuInit

def calculateOtsuThreshold (data : List ℕ) : ℕ :=
  (otsuRun (otsuHist data) data.length (otsuSum (otsuHist data))).thr

/-- Cumulative histogram mass below bin `n`. -/
def cumW (h : ℕ → ℕ) (n : ℕ) : ℕ := ∑ i in Finset.range n, h i

/-- Cumulative intensity mass below bin `n`. -/
def cumS (h : ℕ → ℕ) (n : ℕ) : ℕ := ∑ i in Finset.range n, i * h i

/-- Count-weighted between-class variance of threshold `t` (background =
pixels with value `≤ t`), the quantity the source loop computes. -/
def varCode (h : ℕ → ℕ) (total sum : ℕ) (t : ℕ) : ℚ :=
  if cumW h (t + 1) = 0 ∨ total - cumW h (t + 1) = 0 then 0
  else otsuVariance (cumW h (t + 1)) (total - cumW h (t + 1)) (cumS h (t + 1)) sum

/-- The between-class variance exactly as the claim words it:
`wB·wF·(mB−mF)²` with `wB`/`wF` the background/foreground pixel
*fractions* and `mB`/`mF` the class mean gray values; thresholds with an
empty class carry variance `0`. -/
def betweenClassVariance (data : List ℕ) (t : ℕ) : ℚ :=
  if cumW (otsuHist data) (t + 1) = 0 ∨
      data.length - cumW (otsuHist data) (t + 1) = 0 then 0
  else
    ((cumW (otsuHist data) (t + 1) : ℚ) / (data.length : ℚ)) *
      (((data.length - cumW (otsuHist data) (t + 1) : ℕ) : ℚ) / (data.length : ℚ)) *
      (((cumS (otsuHist data) (t + 1) : ℚ) / (cumW (otsuHist data) (t + 1) : ℚ) -
          ((otsuSum (otsuHist data) : ℚ) - (cumS (otsuHist data) (t + 1) : ℚ)) /
            ((data.length - cumW (otsuHist data) (t + 1) : ℕ) : ℚ)) *
       ((cumS (otsuHist data) (t + 1) : ℚ) / (cumW (otsuHist data) (t + 1) : ℚ) -
          ((otsuSum (otsuHist data) : ℚ) - (cumS (otsuHist data) (t + 1) : ℚ)) /
            ((data.length - cumW (otsuHist data) (t + 1) : ℕ) : ℚ)))

/-! ## Sharpening (Scanner.tsx lines 456-484, `applySharpening`)

`temp` is a fresh zero-initialized buffer; the double loop writes the
interior pixels (channels 0-2 convolved and clamped, alpha set to 255),
then the whole of `temp` is copied back over `data`.  The buffer is a
function `ℕ → ℤ` and each array store is a `Function.update`. -/

def clampByte (v : ℤ) : ℤ := max 0 (min 255 v)

def sharpKernel : List ℤ := [-1, -1, -1, -1, 9, -1, -1, -1, -1]

/-- The convolution sum at pixel `(y, x)`, channel `c` (reads the original
`data`, as the source does). -/
def convAt (data : ℕ → ℤ) (w y x c : ℕ) : ℤ :=
  ((List.range 3).map (fun ky =>
    ((List.range 3).map (fun kx =>
      data (((y - 1 + ky) * w + (x - 1 + kx)) * 4 + c) *
        sharpKernel.getD (ky * 3 + kx) 0)).sum)).sum

/-- The four stores of one interior pixel: channels 0,1,2 then alpha. -/
def writePixel (data : ℕ → ℤ) (w y x : ℕ) (temp : ℕ → ℤ) : ℕ → ℤ :=
  Function.update
    (Function.update
      (Function.update
        (Function.update temp ((y * w + x) * 4) (clampByte (convAt data w y x 0)))
        ((y * w + x) * 4 + 1) (clampByte (convAt data w y x 1)))
      ((y * w + x) * 4 + 2) (clampByte (convAt data w y x 2)))
    ((y * w + x) * 4 + 3) 255

/-- Inner loop: `for (x = 1; x < width - 1; x++)`. -/
def rowPass (data : ℕ → ℤ) (w y : ℕ) (temp : ℕ → ℤ) : ℕ → ℤ :=
  (List.range' 1 (w - 2)).foldl (fun t x => writePixel data w y x t) temp

/-- Outer loop over `for (y = 1; y < height - 1; y++)`, starting from the
zero-initialized `temp`. -/
def sharpTemp (data : ℕ → ℤ) (w h : ℕ) : ℕ → ℤ :=
  (List.range' 1 (h - 2)).foldl (fun t y => rowPass data w y t) (fun _ => 0)

/-- The final copy-back loop `for (i = 0; i < data.length; i++) data[i] = temp[i]`;
`len` is `data.length` (`4·w·h` for a `w×h` RGBA image). -/
def applySharpening (data : ℕ → ℤ) (w h len : ℕ) : ℕ → ℤ :=
  fun i => if i < len then sharpTemp data w h i else data i

/-- A pixel index (byte index `i` into the RGBA buffer) on the 1-pixel
border of a `w×h` image. -/
def onBorder (w h i : ℕ) : Prop :=
  ¬ (1 ≤ i / 4 / w ∧ i / 4 / w < h - 1 ∧ 1 ≤ i / 4 % w ∧ i / 4 % w < w - 1)

/-! ## Worker pool (part_001 lines 128-182 and 285-313)

`getWorker` indexes `this.workers[index % this.workers.length]`: on an
empty pool `index % 0` is `NaN` in JS and the array access yields
`undefined`; here `Nat`'s `index % 0 = index` composed with `List.get?`
on `[]` yields the same observable `none`.  `processImageSections` checks
the pool reference first and only then asks for a worker per section. -/

def getWorker {W : Type} (workers : List W) (index : ℕ) : Option W :=
  workers.get? (index % workers.length)

/-- `terminateAll` terminates every worker and resets `this.workers = []`. -/
def terminateAll {W : Type} (_ : List W) : List W := []

def workerNotAvailableMsg : String := "Worker not available"

def notInitializedMsg : String := "OCR system not initialized"

def processSectionsAux {W S : Type} (recognize : W → S → String)
    (workers : List W) : ℕ → List S → Except String (List String)
  | _, [] => Except.ok []
  | i, s :: ss =>
    match getWorker workers i with
    | none => Except.error workerNotAvailableMsg
    | some w =>
      match processSectionsAux recognize workers (i + 1) ss with
      | Except.ok rest => Except.ok (recognize w s :: rest)
      | Except.error e => Except.error e

/-- `processImageSections` (part_001 lines 285-313): `none` models a null
`workerPoolRef.current`, `some workers` an existing manager object holding
`workers`. -/
def processImageSections {W S : Type} (recognize : W → S → String)
    (pool : Option (List W)) (sections : List S) : Except String String :=
  match pool with
  | none => Except.error notInitializedMsg
  | some workers =>
    match processSectionsAux recognize workers 0 sections with
    | Except.ok texts => Except.ok (String.mk (joinNl (texts.map String.data)))
    | Except.error e => Except.error e

/-! ## Concrete inputs used by individual claims -/

def exC1 : String := "SKU-100  Red Wine Bottle  12  A1-B2"

/-- The record the C1 scenario expects the fixed-width-table strategy to
produce. -/
def recC1 : Product :=
  { id := "PROD-1", sku := "SKU-100", name := "Red Wine Bottle",
    category := none, quantity := 12, location := "A1-B2", imageUrl := "",
    status := "pending" }

def exC2 : String := "AB-1 Wine 5 A1"

def pC5 : Product :=
  { id := "PROD-1", sku := "a-1", name := "abc", category := none,
    quantity := 1, location := "", imageUrl := "", status := "pending" }

def exC7 : String := "A  B  -5"

def pC9a : Product :=
  { id := "PROD-1", sku := "A-b", name := "c", category := none,
    quantity := 1, location := "", imageUrl := "", status := "pending" }

def pC9b : Product :=
  { id := "PROD-2", sku := "A", name := "b-c", category := none,
    quantity := 2, location := "", imageUrl := "", status := "pending" }

def dataC3 : List ℕ := [10, 10, 10, 200, 200]

def dataC8 : ℕ → ℤ := fun _ => 255

def recognizeC10 : Unit → Unit → String := fun _ _ => ""

/-- The candidate the direct-column strategy extracts from `exC2`. -/
def pC7w : Product :=
  { id := "PROD-1", sku := "AB-1", name := "A1", category := some "Wine",
    quantity := 5, location := "", imageUrl := "", status := "pending" }

/-- The validation rule exactly as claim C5 words it (identifier matched
against `^[A-Za-z0-9-]+$`, i.e. case-insensitively). -/
def claimValidC5 (p : Product) : Prop :=
  3 ≤ p.name.length ∧ 0 < p.quantity ∧
    (p.sku.data ≠ [] ∧ ∀ c ∈ p.sku.data, skuCharI c = true) ∧
    (p.location = "" ∨ testLoc p.location.data = true)

/-- The validation rule with the identifier pattern the source actually
uses (`^[A-Z0-9-]+$`, upper case only) — the amended form of C5. -/
def amendedValidC5 (p : Product) : Prop :=
  3 ≤ p.name.length ∧ 0 < p.quantity ∧
    (p.sku.data ≠ [] ∧ ∀ c ∈ p.sku.data, skuCharU c = true) ∧
    (p.location = "" ∨ testLoc p.location.data = true)

instance (p : Product) : Decidable (claimValidC5 p) := by
  unfold claimValidC5; infer_instance

instance (p : Product) : Decidable (amendedValidC5 p) := by
  unfold amendedValidC5; infer_instance

instance (w h i : ℕ) : Decidable (onBorder w h i) := by
  unfold onBorder; infer_instance

/-! # Theorems -/

/-- **C1** (code bug).  On the spec's end-to-end input line
`"SKU-100  Red Wine Bottle  12  A1-B2"` the fixed-width-table strategy
produces *no* candidate at all: its header heuristic treats the first line
as a header because the line contains the substring `"sku"`
(case-insensitively) — here as part of the identifier `SKU-100` — and the
loop starts after it, so the only line is skipped.  The second conjunct
shows the expected record would have passed validation had it been
produced. -/
theorem parseTableFormat_drops_sku_prefixed_line :
    parseTableFormat exC1 = [] ∧ validateProduct recC1 = true := by
  decide

/-- **C2** (code bug).  The image-extraction path of `parseImage` parses
the cleaned recognized text with `parseDirectText` alone — no other
strategy runs and neither deduplication nor validation is applied — so its
result differs from the four-strategy pipeline
`parseWithMultipleStrategies` already on the one-line text
`"AB-1 Wine 5 A1"` (the structured-pattern record `(AB-1, Wine, 5, A1)`
is absent from the image path's output). -/
theorem parseImage_runs_only_direct_strategy :
    parseImageText exC2 ≠ parseWithMultipleStrategies exC2 := by
  decide

/-- **C4** (counterexample).  `cleanText` is not idempotent: on `"SS5"` the
digit-context substitution `S→5` turns the second `S` into `5`, which puts
the first `S` in digit context, so a second pass changes the text again
(`"SS5" → "S55" → "555"`). -/
theorem cleanText_not_idempotent :
    cleanText (cleanText exC4) ≠ cleanText exC4 := by
  decide

/-- **C5** (counterexample).  A candidate with identifier `"a-1"` (lower
case), description `"abc"`, quantity 1 and empty location satisfies every
rule of the claim — its identifier matches `^[A-Za-z0-9-]+$` — yet
`validateProduct` drops it, because the source regex `^[A-Z0-9-]+$` has no
`i` flag. -/
theorem validateProduct_rejects_lowercase_sku :
    claimValidC5 pC5 ∧ validateProduct pC5 = false := by
  constructor
  · decide
  · decide

/-- **C7** (counterexample).  On the table-formatted line `"A  B  -5"` the
fixed-width-table strategy produces a candidate whose quantity is `-5`:
`parseInt("-5")` is `-5`, which is truthy, so the `|| 1` default does not
apply and the claimed invariant `quantity ≥ 1` fails. -/
theorem parseTableFormat_negative_quantity :
    ∃ p ∈ parseTableFormat exC7, p.quantity < 1 := by
  decide

/-- **C8** (counterexample).  Sharpening a 3×3 all-white image overwrites
the border: the fresh `temp` buffer is zero-initialized, the loops write
only the single interior pixel, and the final copy-back loop copies *all*
of `temp` over `data`, so the corner byte 0 becomes `0` although the
original pixel value was `255` — the 1-pixel border is not left
unchanged. -/
theorem applySharpening_zeroes_border_pixel :
    applySharpening dataC8 3 3 36 0 = 0 ∧ dataC8 0 = 255 := by
  decide

/-- **C9** (confirmed).  The composite key concatenates identifier and
lowercased description with `"-"`, and identifiers may contain hyphens, so
the distinct pairs `("A-b", "c")` and `("A", "b-c")` collide and
deduplication silently drops the later, non-duplicate record. -/
theorem dedup_key_collision_drops_distinct_pair :
    (pC9a.sku, lowerList pC9a.name.data) ≠ (pC9b.sku, lowerList pC9b.name.data) ∧
      dedupKey pC9a = dedupKey pC9b ∧
      removeDuplicates [pC9a, pC9b] = [pC9a] := by
  decide

/-- **C10** (confirmed).  A worker-pool manager that exists but holds zero
workers (the state after `terminateAll`, or before `initialize` has added
any worker) returns `undefined` from `getWorker` for every index — the JS
`index % 0` is `NaN` and the array access yields `undefined` — and a
recognition dispatch through `processImageSections` over a nonempty
section list therefore fails with the `'Worker not available'` error, not
the not-initialized error. -/
theorem empty_pool_worker_not_available {W S : Type} (recognize : W → S → String)
    (sections : List S) (hs : sections ≠ []) :
    (∀ i, getWorker ([] : List W) i = none) ∧
    (∀ (ws : List W) (i : ℕ), getWorker (terminateAll ws) i = none) ∧
    processImageSections recognize (some ([] : List W)) sections =
      Except.error workerNotAvailableMsg ∧
    workerNotAvailableMsg ≠ notInitializedMsg := by
  refine ⟨fun i => rfl, fun ws i => rfl, ?_, by decide⟩
  match sections with
  | [] => exact absurd rfl hs
  | s :: ss => rfl

/-- Witness for C10: a concrete empty pool of `Unit` workers and one
section. -/
theorem empty_pool_witness :
    ([()] : List Unit) ≠ [] ∧
    processImageSections recognizeC10 (some ([] : List Unit)) [()] =
      Except.error workerNotAvailableMsg := by
  refine ⟨by decide, ?_⟩
  exact (empty_pool_worker_not_available recognizeC10 [()] (by decide)).2.2.1

/-- The deduplication filter keeps, for every key, exactly the first
element of the input carrying that key (provided the key is not already in
`seen`). -/
theorem dedupAux_filter_key (k : String) :
    ∀ (l : List Product) (seen : List String),
      (dedupAux seen l).filter (fun p => decide (dedupKey p = k)) =
        if k ∈ seen then []
        else (l.filter (fun p => decide (dedupKey p = k))).take 1 := by
  intro l
  induction l with
  | nil =>
    intro seen
    by_cases hk : k ∈ seen <;> simp [dedupAux, hk]
  | cons p ps ih =>
    intro seen
    by_cases hp : dedupKey p ∈ seen
    · have e1 : dedupAux seen (p :: ps) = dedupAux seen ps := by
        simp [dedupAux, hp]
      rw [e1, ih seen]
      by_cases hk : k ∈ seen
      · simp [hk]
      · have hpk : ¬ dedupKey p = k := by
          intro h
          exact hk (h ▸ hp)
        simp [hk, List.filter_cons, hpk]
    · have e1 : dedupAux seen (p :: ps) = p :: dedupAux (dedupKey p :: seen) ps := by
        simp [dedupAux, hp]
      rw [e1]
      by_cases hpk : dedupKey p = k
      · have hk : ¬ k ∈ seen := by
          rw [← hpk]
          exact hp
        have hmem : k ∈ dedupKey p :: seen := by
          rw [← hpk]
          exact List.mem_cons_self _ _
        simp [List.filter_cons, hpk, ih, hmem, hk]
      · have hmem : (k ∈ dedupKey p :: seen) ↔ (k ∈ seen) := by
          simp only [List.mem_cons, or_iff_right_iff_imp]
          intro h
          exact absurd h.symm hpk
        by_cases hk : k ∈ seen
        · simp [List.filter_cons, hpk, ih, hmem.mpr hk, hk]
        · have hnm : ¬ k ∈ dedupKey p :: seen := fun h => hk (hmem.mp h)
          simp [List.filter_cons, hpk, ih, hnm, hk]

/-- **C6** (confirmed).  Candidates with identical
`(identifier, lowercase(description))` pairs carry identical composite
keys, and among all candidates of the four strategies (concatenated in the
fixed execution order direct-column, structured-pattern, fixed-width-table,
line-context) deduplication keeps, for every key, exactly the first
occurrence — so of two same-pair candidates from different strategies
exactly the one from the earlier strategy survives. -/
theorem dedup_first_strategy_occurrence_wins (text k : String) :
    (removeDuplicates (allCandidates text)).filter
        (fun p => decide (dedupKey p = k)) =
      ((allCandidates text).filter (fun p => decide (dedupKey p = k))).take 1 ∧
    ∀ p q : Product, p.sku = q.sku →
      lowerList p.name.data = lowerList q.name.data → dedupKey p = dedupKey q := by
  constructor
  · rw [removeDuplicates, dedupAux_filter_key k (allCandidates text) []]
    simp
  · intro p q h1 h2
    simp [dedupKey, h1, h2]

/-- Witness for C6 at the concrete input line of the end-to-end scenario
and the key of its expected record. -/
theorem dedup_first_occurrence_witness :
    (removeDuplicates (allCandidates exC1)).filter
        (fun p => decide (dedupKey p = dedupKey recC1)) =
      ((allCandidates exC1).filter
        (fun p => decide (dedupKey p = dedupKey recC1))).take 1 ∧
    dedupKey pC9a = dedupKey pC9a := by
  exact ⟨(dedup_first_strategy_occurrence_wins exC1 (dedupKey recC1)).1,
    (dedup_first_strategy_occurrence_wins exC1 (dedupKey recC1)).2 pC9a pC9a rfl rfl⟩

/-- **C5** (amended).  `validateProduct` keeps a candidate iff its
description length is ≥ 3, its quantity is positive, its identifier is a
nonempty string over `[A-Z0-9-]` (upper case only — the source regex has
no `i` flag), and its location, when non-empty, starts with an upper-case
letter followed by a digit. -/
theorem validateProduct_iff_amended_rules (p : Product) :
    validateProduct p = true ↔ amendedValidC5 p := by
  unfold validateProduct amendedValidC5 testSkuU
  simp [List.all_eq_true, List.isEmpty_iff, and_assoc]

/-- Every character of `cs.take m` satisfies `p` when `m` does not exceed
the `takeWhile p` prefix. -/
theorem take_le_takeWhile_pred {p : Char → Bool} :
    ∀ (cs : List Char) (m : ℕ), m ≤ (cs.takeWhile p).length →
      ∀ c ∈ cs.take m, p c = true := by
  intro cs
  induction cs with
  | nil =>
    intro m _ c hc
    simp at hc
  | cons a as ih =>
    intro m hm c hc
    by_cases hpa : p a = true
    · rw [List.takeWhile_cons, if_pos hpa] at hm
      match m with
      | 0 => simp at hc
      | m' + 1 =>
        rw [List.take_succ_cons] at hc
        rcases List.mem_cons.mp hc with he | ht
        · rw [he]; exact hpa
        · exact ih m' (Nat.succ_le_succ_iff.mp (by simpa using hm)) c ht
    · rw [List.takeWhile_cons, if_neg hpa] at hm
      have : m = 0 := Nat.le_zero.mp hm
      subst this
      simp at hc

/-- A split produced by a greedy `(+)` quantifier over `p` is a nonempty
all-`p` prefix. -/
theorem greedyOpts_sound {p : Char → Bool} {cs a b : List Char}
    (h : (a, b) ∈ greedyOpts p cs) : a ≠ [] ∧ ∀ c ∈ a, p c = true := by
  unfold greedyOpts at h
  simp only [List.mem_map, List.mem_range] at h
  obtain ⟨k, hk, he⟩ := h
  injection he with ha hb
  subst ha
  constructor
  · intro hnil
    rcases List.take_eq_nil_iff.mp hnil with h0 | hcs
    · omega
    · subst hcs
      simp at hk
  · exact take_le_takeWhile_pred cs _ (Nat.sub_le _ _)

/-- The digit group of a successful structured-pattern match is a nonempty
digit string. -/
theorem matchStructured_digits {cs sk nm dg loc : List Char}
    (h : matchStructured cs = some (sk, nm, dg, loc)) :
    dg ≠ [] ∧ ∀ c ∈ dg, c.isDigit = true := by
  unfold matchStructured at h
  obtain ⟨su, _, h⟩ := List.exists_of_findSome?_eq_some h
  obtain ⟨w1, _, h⟩ := List.exists_of_findSome?_eq_some h
  obtain ⟨nm', _, h⟩ := List.exists_of_findSome?_eq_some h
  obtain ⟨w2, _, h⟩ := List.exists_of_findSome?_eq_some h
  obtain ⟨dg', hdg, h⟩ := List.exists_of_findSome?_eq_some h
  obtain ⟨w3, _, h⟩ := List.exists_of_findSome?_eq_some h
  rw [Option.map_eq_some'] at h
  obtain ⟨lc, _, he⟩ := h
  have hd : dg = dg'.1 := by
    injection he with h1 hrest
    injection hrest with h2 hrest2
    injection hrest2 with h3 h4
    exact h3.symm
  subst hd
  exact greedyOpts_sound hdg

/-- `parseInt(s) || 1` is never `0`. -/
theorem parseIntOr1_ne_zero (s : String) : parseIntOr1 s ≠ 0 := by
  unfold parseIntOr1
  cases h : parseIntJS s with
  | none => simp
  | some n =>
    by_cases hn : n = 0 <;> simp [hn]

/-- The six JS whitespace characters are not digits. -/
theorem ws_not_digit {c : Char} (h : isWsJS c = true) : c.isDigit = false := by
  unfold isWsJS at h
  simp only [Bool.or_eq_true, decide_eq_true_eq] at h
  rcases h with ((((h | h) | h) | h) | h) | h <;> subst h <;> decide

/-- `takeWhile` keeps everything when the predicate holds everywhere. -/
theorem takeWhile_all {p : Char → Bool} {l : List Char}
    (h : ∀ c ∈ l, p c = true) : l.takeWhile p = l :=
  List.takeWhile_eq_self_iff.mpr h

/-- On a nonempty all-digit string, `parseInt(s) || 1` is a positive
integer. -/
theorem parseIntOr1_all_digits {l : List Char} (h1 : l ≠ [])
    (h2 : ∀ c ∈ l, c.isDigit = true) : 1 ≤ parseIntOr1 (String.mk l) := by
  obtain ⟨c, cs, rfl⟩ := List.exists_cons_of_ne_nil h1
  have hc : c.isDigit = true := h2 c (List.mem_cons_self _ _)
  have hcw : isWsJS c = false := by
    cases hw : isWsJS c
    · rfl
    · rw [ws_not_digit hw] at hc
      exact absurd hc (by simp)
  have hdata : (String.mk (c :: cs)).data = c :: cs := rfl
  have hdrop : (c :: cs).dropWhile isWsJS = c :: cs := by
    rw [List.dropWhile_cons, hcw]
    simp
  have hcm : ¬ c = '-' := by
    intro e
    subst e
    exact absurd hc (by decide)
  have hcp : ¬ c = '+' := by
    intro e
    subst e
    exact absurd hc (by decide)
  have hpre : (hasPre ['0', 'x'] (c :: cs) || hasPre ['0', 'X'] (c :: cs)) = false := by
    match cs with
    | [] =>
      by_cases h0 : c = '0' <;> simp [hasPre, h0]
    | d :: ds =>
      have hd : d.isDigit = true := h2 d (by simp)
      have hdx : ¬ ('x' = d) := by
        intro e
        rw [← e] at hd
        exact absurd hd (by decide)
      have hdX : ¬ ('X' = d) := by
        intro e
        rw [← e] at hd
        exact absurd hd (by decide)
      by_cases h0 : '0' = c <;> simp [hasPre, h0, hdx, hdX]
  have hdec : parseDecimal (c :: cs) = some (digitsVal (c :: cs)) := by
    unfold parseDecimal
    rw [takeWhile_all h2]
    simp
  have hint : parseIntJS (String.mk (c :: cs)) = some ((digitsVal (c :: cs) : ℤ)) := by
    unfold parseIntJS
    rw [hdata]  -- reduce the match scrutinee
    rw [hdrop]
    simp only [hcm, hcp, if_neg, if_false]
    unfold parseUnsigned
    rw [hpre]
    simp [hdec]
  unfold parseIntOr1
  rw [hint]
  by_cases hz : (digitsVal (c :: cs) : ℤ) = 0
  · simp [hz]
  · simp only [hz, if_neg hz]
    omega

/-- `extractFirst` returns an element satisfying the predicate. -/
theorem extractFirst_pred {p : List Char → Bool} :
    ∀ (l : List (List Char)) (x : List Char) (r : List (List Char)),
      extractFirst p l = some (x, r) → p x = true := by
  intro l
  induction l with
  | nil =>
    intro x r h
    simp [extractFirst] at h
  | cons a as ih =>
    intro x r h
    unfold extractFirst at h
    by_cases hpa : p a = true
    · rw [if_pos hpa] at h
      injection h with h1
      injection h1 with hx hr
      rw [← hx]
      exact hpa
    · rw [if_neg hpa] at h
      cases he : extractFirst p as with
      | none => rw [he] at h; simp at h
      | some yr =>
        rw [he] at h
        injection h with h1
        have hx : yr.1 = x := by
          cases yr
          injection h1 with hx hr
        rw [← hx]
        exact ih yr.1 yr.2 (by rw [he])

/-- Whatever the columns are, the direct-column selling unit parses to a
positive quantity. -/
theorem directQuantitySrc_pos (cols : List (List Char)) :
    1 ≤ parseIntOr1 (String.mk (directQuantitySrc cols)) := by
  have hsrc : directQuantitySrc cols = ['1'] ∨
      testAllDigits (directQuantitySrc cols) = true := by
    unfold directQuantitySrc
    cases he : extractFirst testAllDigits cols with
    | none => left; rfl
    | some ur =>
      right
      obtain ⟨u, r⟩ := ur
      exact extractFirst_pred cols u r he
  rcases hsrc with h | h
  · rw [h]
    decide
  · unfold testAllDigits at h
    simp only [Bool.and_eq_true, Bool.not_eq_true'] at h
    refine parseIntOr1_all_digits ?_ (List.all_eq_true.mp h.2)
    intro hnil
    rw [hnil] at h
    simp at h

/-- Every candidate of the direct-column line parser has positive
quantity. -/
theorem directLine_quantity {n : ℕ} {l : List Char} {p : Product}
    (h : directLine n l = some p) : 1 ≤ p.quantity := by
  simp only [directLine] at h
  split_ifs at h
  all_goals first
    | exact Option.noConfusion h
    | (have h1 := Option.some.inj h; rw [← h1]; exact directQuantitySrc_pos _)

theorem directLoop_quantity :
    ∀ (ls : List (List Char)) (n : ℕ) (p : Product),
      p ∈ directLoop n ls → 1 ≤ p.quantity := by
  intro ls
  induction ls with
  | nil =>
    intro n p h
    simp [directLoop] at h
  | cons l tail ih =>
    intro n p h
    unfold directLoop at h
    cases hd : directLine n l with
    | none =>
      rw [hd] at h
      exact ih _ _ h
    | some q =>
      rw [hd] at h
      rcases List.mem_cons.mp h with he | ht
      · rw [he]
        exact directLine_quantity hd
      · exact ih _ _ ht

theorem structLoop_quantity :
    ∀ (ls : List (List Char)) (n : ℕ) (p : Product),
      p ∈ structLoop n ls → 1 ≤ p.quantity := by
  intro ls
  induction ls with
  | nil =>
    intro n p h
    simp [structLoop] at h
  | cons l tail ih =>
    intro n p h
    unfold structLoop at h
    cases hm : matchStructured l with
    | none =>
      rw [hm] at h
      exact ih _ _ h
    | some quad =>
      obtain ⟨sk, nm, dg, loc⟩ := quad
      rw [hm] at h
      rcases List.mem_cons.mp h with he | ht
      · have hd := matchStructured_digits hm
        rw [he]
        exact parseIntOr1_all_digits hd.1 hd.2
      · exact ih _ _ ht

/-- Every candidate of the fixed-width-table line parser has a *nonzero*
quantity (`parseInt || 1` can be negative but never `0`). -/
theorem tableLine_quantity {n : ℕ} {l : List Char} {p : Product}
    (h : tableLine n l = some p) : p.quantity ≠ 0 := by
  simp only [tableLine] at h
  split_ifs at h
  all_goals first
    | exact Option.noConfusion h
    | (have h1 := Option.some.inj h; rw [← h1]; exact parseIntOr1_ne_zero _)

theorem tableLoop_quantity :
    ∀ (ls : List (List Char)) (n : ℕ) (p : Product),
      p ∈ tableLoop n ls → p.quantity ≠ 0 := by
  intro ls
  induction ls with
  | nil =>
    intro n p h
    simp [tableLoop] at h
  | cons l tail ih =>
    intro n p h
    unfold tableLoop at h
    cases hd : tableLine n l with
    | none =>
      rw [hd] at h
      exact ih _ _ h
    | some q =>
      rw [hd] at h
      rcases List.mem_cons.mp h with he | ht
      · rw [he]
        exact tableLine_quantity hd
      · exact ih _ _ ht

/-- Every candidate of the line-context strategy has quantity exactly 1. -/
theorem ctxLoop_quantity :
    ∀ (N : ℕ) (ls : List (List Char)), ls.length ≤ N →
      ∀ (n : ℕ) (p : Product), p ∈ ctxLoop n ls → p.quantity = 1 := by
  intro N
  induction N with
  | zero =>
    intro ls hlen n p h
    have : ls = [] := List.length_eq_zero.mp (Nat.le_zero.mp hlen)
    subst this
    simp [ctxLoop] at h
  | succ N ih =>
    intro ls hlen n p h
    rcases ls with _ | ⟨l, rest⟩
    · simp [ctxLoop] at h
    · rcases rest with _ | ⟨r, rs⟩
      · simp only [ctxLoop] at h
        split_ifs at h
        · simp at h
        · rw [List.mem_singleton.mp h]
          rfl
        · simp at h
      · simp only [ctxLoop, List.length_cons] at h hlen
        have hcons : ∀ (sku nm : List Char) (m : ℕ),
            p ∈ mkCtx m sku nm :: ctxLoop (m + 1) rs → p.quantity = 1 := by
          intro sku nm m hm
          rcases List.mem_cons.mp hm with he | ht
          · rw [he]
            rfl
          · exact ih rs (by omega) (m + 1) p ht
        have hrec : (r :: rs).length ≤ N := by
          simp only [List.length_cons]
          omega
        split_ifs at h
        all_goals first
          | exact ih (r :: rs) hrec n p h
          | exact hcons _ _ _ h

/-- **C7** (amended).  Candidates of the direct-column, structured-pattern
and line-context strategies always carry quantity ≥ 1 (with 1 as the
default); the fixed-width-table strategy guarantees only a nonzero
quantity — its third column passes through `parseInt(...) || 1`, which
keeps negative values. -/
theorem strategy_quantities_default_one (text : String) :
    (∀ p ∈ parseDirectText text, 1 ≤ p.quantity) ∧
    (∀ p ∈ parseStructuredText text, 1 ≤ p.quantity) ∧
    (∀ p ∈ parseWithContextLines text, p.quantity = 1) ∧
    (∀ p ∈ parseTableFormat text, p.quantity ≠ 0) := by
  refine ⟨?_, ?_, ?_, ?_⟩
  · intro p hp
    exact directLoop_quantity _ _ _ hp
  · intro p hp
    exact structLoop_quantity _ _ _ hp
  · intro p hp
    exact ctxLoop_quantity (splitNl text.data).length _ le_rfl _ _ hp
  · intro p hp
    simp only [parseTableFormat] at hp
    split_ifs at hp
    · exact tableLoop_quantity _ _ _ hp
    · exact tableLoop_quantity _ _ _ hp

/-- Witness for C7 at the concrete one-line text `"AB-1 Wine 5 A1"`: the
direct-column strategy produces a candidate there, and its quantity is
positive. -/
theorem strategy_quantities_witness :
    pC7w ∈ parseDirectText exC2 ∧ 1 ≤ pC7w.quantity := by
  refine ⟨by decide, ?_⟩
  exact (strategy_quantities_default_one exC2).1 pC7w (by decide)

/-! ### Helper lemmas for the normalizer (claim C4) -/

theorem mem_despecialBy {f : Char → Bool} {l : List Char} {c : Char}
    (h : c ∈ despecialBy f l) : c ∈ l ∨ c = ' ' := by
  unfold despecialBy at h
  rcases List.mem_map.mp h with ⟨d, hd, he⟩
  by_cases hf : f d = true
  · rw [if_pos hf] at he
    left
    rw [← he]
    exact hd
  · rw [if_neg hf] at he
    right
    exact he.symm

theorem mem_collapseAux :
    ∀ (b : Bool) (l : List Char) (c : Char),
      c ∈ collapseAux b l → c ∈ l ∨ c = ' ' := by
  intro b l
  induction l generalizing b with
  | nil =>
    intro c h
    simp [collapseAux] at h
  | cons a as ih =>
    intro c h
    unfold collapseAux at h
    split_ifs at h
    · rcases ih true c h with h1 | h1
      · exact Or.inl (List.mem_cons_of_mem a h1)
      · exact Or.inr h1
    · rcases List.mem_cons.mp h with h1 | h1
      · exact Or.inr h1
      · rcases ih true c h1 with h2 | h2
        · exact Or.inl (List.mem_cons_of_mem a h2)
        · exact Or.inr h2
    · rcases List.mem_cons.mp h with h1 | h1
      · exact Or.inl (h1 ▸ List.mem_cons_self a as)
      · rcases ih false c h1 with h2 | h2
        · exact Or.inl (List.mem_cons_of_mem a h2)
        · exact Or.inr h2

theorem mem_trimJS {l : List Char} {c : Char} (h : c ∈ trimJS l) : c ∈ l := by
  unfold trimJS at h
  rw [List.mem_reverse] at h
  have h1 : c ∈ (l.dropWhile isWsJS).reverse := by
    have e := List.takeWhile_append_dropWhile isWsJS (l.dropWhile isWsJS).reverse
    rw [← e]
    exact List.mem_append_right _ h
  rw [List.mem_reverse] at h1
  have e := List.takeWhile_append_dropWhile isWsJS l
  rw [← e]
  exact List.mem_append_right _ h1

theorem mem_subDigitCtx {p : Char → Bool} {r : Char} :
    ∀ (l : List Char) (c : Char), c ∈ subDigitCtx p r l → c ∈ l ∨ c = r := by
  intro l
  induction l with
  | nil =>
    intro c h
    simp [subDigitCtx] at h
  | cons a as ih =>
    intro c h
    match as with
    | [] =>
      simp only [subDigitCtx] at h
      exact Or.inl h
    | d :: rest =>
      simp only [subDigitCtx] at h
      split_ifs at h
      · rcases List.mem_cons.mp h with h1 | h1
        · exact Or.inr h1
        · rcases ih c h1 with h2 | h2
          · exact Or.inl (List.mem_cons_of_mem a h2)
          · exact Or.inr h2
      · rcases List.mem_cons.mp h with h1 | h1
        · exact Or.inl (h1 ▸ List.mem_cons_self a _)
        · rcases ih c h1 with h2 | h2
          · exact Or.inl (List.mem_cons_of_mem a h2)
          · exact Or.inr h2

theorem mem_splitNl :
    ∀ (l : List Char) (m : List Char), m ∈ splitNl l → ∀ c ∈ m, c ∈ l := by
  intro l
  induction l with
  | nil =>
    intro m hm c hc
    simp only [splitNl, List.mem_singleton] at hm
    rw [hm] at hc
    simp at hc
  | cons a as ih =>
    intro m hm c hc
    unfold splitNl at hm
    split_ifs at hm
    · rcases List.mem_cons.mp hm with h1 | h1
      · rw [h1] at hc
        simp at hc
      · exact List.mem_cons_of_mem a (ih m h1 c hc)
    · cases hsp : splitNl as with
      | nil =>
        rw [hsp] at hm
        simp only [List.mem_singleton] at hm
        rw [hm] at hc
        rcases List.mem_singleton.mp hc with rfl
        exact List.mem_cons_self _ _
      | cons l0 ls =>
        rw [hsp] at hm
        rcases List.mem_cons.mp hm with h1 | h1
        · rw [h1] at hc
          rcases List.mem_cons.mp hc with h2 | h2
          · exact h2 ▸ List.mem_cons_self a as
          · exact List.mem_cons_of_mem a
              (ih l0 (hsp ▸ List.mem_cons_self _ _) c h2)
        · exact List.mem_cons_of_mem a
            (ih m (hsp ▸ List.mem_cons_of_mem _ h1) c hc)

theorem subDigitCtx_id {p : Char → Bool} {r : Char} :
    ∀ (l : List Char), (∀ c ∈ l, p c = false) → subDigitCtx p r l = l := by
  intro l
  induction l with
  | nil => intro _; rfl
  | cons a as ih =>
    intro h
    match as with
    | [] => rfl
    | d :: rest =>
      have ha : p a = false := h a (List.mem_cons_self _ _)
      simp only [subDigitCtx, ha, Bool.false_and, Bool.false_eq_true, if_false]
      rw [ih (fun c hc => h c (List.mem_cons_of_mem a hc))]

theorem despecialBy_id {f : Char → Bool} {l : List Char}
    (h : ∀ c ∈ l, f c = true) : despecialBy f l = l := by
  unfold despecialBy
  induction l with
  | nil => rfl
  | cons a as ih =>
    rw [List.map_cons, if_pos (h a (List.mem_cons_self _ _)),
      ih (fun c hc => h c (List.mem_cons_of_mem a hc))]

theorem collapse_ws_space :
    ∀ (b : Bool) (l : List Char) (c : Char),
      c ∈ collapseAux b l → isWsJS c = true → c = ' ' := by
  intro b l
  induction l generalizing b with
  | nil =>
    intro c h _
    simp [collapseAux] at h
  | cons a as ih =>
    intro c h hw
    unfold collapseAux at h
    split_ifs at h with h1 h2
    · exact ih true c h hw
    · rcases List.mem_cons.mp h with h3 | h3
      · exact h3
      · exact ih true c h3 hw
    · rcases List.mem_cons.mp h with h3 | h3
      · rw [h3] at hw
        exact absurd hw (by simp [h1])
      · exact ih false c h3 hw

theorem collapse_head_true :
    ∀ (l : List Char) (c : Char) (rest : List Char),
      collapseAux true l = c :: rest → isWsJS c = false := by
  intro l
  induction l with
  | nil =>
    intro c rest h
    simp [collapseAux] at h
  | cons a as ih =>
    intro c rest h
    by_cases hw : isWsJS a = true
    · have e : collapseAux true (a :: as) = collapseAux true as := by
        cases as <;> simp [collapseAux, hw]
      rw [e] at h
      exact ih c rest h
    · have e : collapseAux true (a :: as) = a :: collapseAux false as := by
        cases as <;> simp [collapseAux, hw]
      rw [e] at h
      injection h with h2 _
      rw [← h2]
      exact Bool.eq_false_iff.mpr hw

theorem collapse_chain :
    ∀ (b : Bool) (l : List Char),
      (collapseAux b l).Chain'
        (fun x y => ¬(isWsJS x = true ∧ isWsJS y = true)) := by
  intro b l
  induction l generalizing b with
  | nil => simp [collapseAux]
  | cons a as ih =>
    unfold collapseAux
    split_ifs with h1 h2
    · exact ih true
    · rw [List.chain'_cons']
      refine ⟨?_, ih true⟩
      intro y hy
      cases he : collapseAux true as with
      | nil =>
        rw [he] at hy
        simp at hy
      | cons c rest =>
        rw [he] at hy
        simp only [List.head?_cons, Option.mem_def, Option.some.injEq] at hy
        intro hcon
        rw [← hy] at hcon
        rw [collapse_head_true as c rest he] at hcon
        exact absurd hcon.2 (by simp)
    · rw [List.chain'_cons']
      refine ⟨?_, ih false⟩
      intro y _
      intro hcon
      exact h1 hcon.1

theorem collapse_true_eq_false_of_head :
    ∀ (l : List Char), (∀ c rest, l = c :: rest → isWsJS c = false) →
      collapseAux true l = collapseAux false l := by
  intro l h
  cases l with
  | nil => rfl
  | cons a as =>
    have ha : isWsJS a = false := h a as rfl
    unfold collapseAux
    rw [if_neg (by simp [ha]), if_neg (by simp [ha])]

theorem collapse_id :
    ∀ (l : List Char),
      (∀ c ∈ l, isWsJS c = true → c = ' ') →
      l.Chain' (fun x y => ¬(isWsJS x = true ∧ isWsJS y = true)) →
      collapseAux false l = l := by
  intro l
  induction l with
  | nil =>
    intro _ _
    rfl
  | cons a as ih =>
    intro hsp hch
    have hch' := List.chain'_cons'.mp hch
    by_cases hw : isWsJS a = true
    · have ha : a = ' ' := hsp a (List.mem_cons_self _ _) hw
      have hhead : ∀ c rest, as = c :: rest → isWsJS c = false := by
        intro c rest he
        have := hch'.1 c (by rw [he]; rfl)
        by_contra hc
        exact this ⟨hw, by simpa using hc⟩
      unfold collapseAux
      rw [if_pos hw]
      have htail : collapseAux false as = as :=
        ih (fun c hc => hsp c (List.mem_cons_of_mem a hc)) hch'.2
      rw [collapse_true_eq_false_of_head as hhead, htail, ha]
      simp
    · unfold collapseAux
      rw [if_neg hw]
      rw [ih (fun c hc => hsp c (List.mem_cons_of_mem a hc)) hch'.2]

theorem dropWhile_head_false {p : Char → Bool} :
    ∀ (l : List Char) (c : Char) (rest : List Char),
      l.dropWhile p = c :: rest → p c = false := by
  intro l
  induction l with
  | nil =>
    intro c rest h
    simp at h
  | cons a as ih =>
    intro c rest h
    rw [List.dropWhile_cons] at h
    split_ifs at h with h1
    · exact ih c rest h
    · injection h with h2 _
      rw [← h2]
      simpa using h1

theorem dropWhile_self_of_head {p : Char → Bool} :
    ∀ (l : List Char), (∀ c rest, l = c :: rest → p c = false) →
      l.dropWhile p = l := by
  intro l h
  cases l with
  | nil => rfl
  | cons a as =>
    rw [List.dropWhile_cons, if_neg (by simp [h a as rfl])]

theorem trimJS_idem (l : List Char) : trimJS (trimJS l) = trimJS l := by
  unfold trimJS
  have hBhead : ∀ c rest,
      (l.dropWhile isWsJS).reverse.dropWhile isWsJS = c :: rest →
        isWsJS c = false := fun c rest h => dropWhile_head_false _ c rest h
  have h2 : ((l.dropWhile isWsJS).reverse.dropWhile isWsJS).dropWhile isWsJS =
      (l.dropWhile isWsJS).reverse.dropWhile isWsJS :=
    List.dropWhile_idempotent _ _
  have h1 : ((l.dropWhile isWsJS).reverse.dropWhile isWsJS).reverse.dropWhile isWsJS =
      ((l.dropWhile isWsJS).reverse.dropWhile isWsJS).reverse := by
    apply dropWhile_self_of_head
    intro c rest hc
    have hc' : ((l.dropWhile isWsJS).reverse.dropWhile isWsJS).getLast? = some c := by
      rw [← List.head?_reverse, hc]
      rfl
    have hsplit := List.takeWhile_append_dropWhile isWsJS (l.dropWhile isWsJS).reverse
    have hBne : (l.dropWhile isWsJS).reverse.dropWhile isWsJS ≠ [] := by
      intro h0
      rw [h0] at hc
      simp at hc
    have hlastA : (l.dropWhile isWsJS).reverse.getLast? = some c := by
      rw [← hsplit, List.getLast?_append, hc']
      rfl
    rw [List.getLast?_reverse] at hlastA
    cases hA : l.dropWhile isWsJS with
    | nil =>
      rw [hA] at hlastA
      simp at hlastA
    | cons d ds =>
      rw [hA] at hlastA
      simp only [List.head?_cons, Option.some.injEq] at hlastA
      rw [← hlastA]
      exact dropWhile_head_false l d ds hA
  rw [h1, List.reverse_reverse, h2]

theorem chain_trimJS {R : Char → Char → Prop} (hsym : ∀ a b, R a b → R b a)
    {l : List Char} (h : l.Chain' R) : (trimJS l).Chain' R := by
  have hd : ∀ (m : List Char), m.Chain' R → (m.dropWhile isWsJS).Chain' R := by
    intro m hm
    have e := List.takeWhile_append_dropWhile isWsJS m
    rw [← e] at hm
    exact (List.chain'_append.mp hm).2.1
  have hr : ∀ (m : List Char), m.Chain' R → m.reverse.Chain' R := by
    intro m hm
    rw [List.chain'_reverse]
    exact List.Chain'.imp (fun a b hab => hsym a b hab) hm
  exact hr _ (hd _ (hr _ (hd _ h)))

/-- Space and the substitution digits are not OCR-confusable. -/
theorem confusable_space : confusable ' ' = false := by decide

/-- Characters of the collapse-of-despecial stage come from the input or
are spaces. -/
theorem mem_stageM {l : List Char} {c : Char}
    (h : c ∈ collapseWs (despecialBy cleanAllowed l)) : c ∈ l ∨ c = ' ' := by
  rcases mem_collapseAux false _ c h with h1 | h1
  · exact mem_despecialBy h1
  · exact Or.inr h1

/-- Every character the despecial stage emits is on the allow-list. -/
theorem despecial_allowed {l : List Char} {c : Char}
    (h : c ∈ despecialBy cleanAllowed l) : cleanAllowed c = true := by
  unfold despecialBy at h
  rcases List.mem_map.mp h with ⟨d, _, he⟩
  by_cases hf : cleanAllowed d = true
  · rw [if_pos hf] at he
    rw [← he]
    exact hf
  · rw [if_neg hf] at he
    rw [← he]
    decide

/-- The four digit-context substitutions are the identity on
confusable-free text. -/
theorem subs_id {m : List Char} (hm : ∀ c ∈ m, confusable c = false) :
    subDigitCtx isZChar '2' (subDigitCtx isSChar '5' (subDigitCtx isLIChar '1'
      (subDigitCtx isOChar '0' m))) = m := by
  have hsplit : ∀ c ∈ m, isOChar c = false ∧ isLIChar c = false ∧
      isSChar c = false ∧ isZChar c = false := by
    intro c hc
    have := hm c hc
    unfold confusable at this
    simp only [Bool.or_eq_false_iff] at this
    exact ⟨this.1.1.1, this.1.1.2, this.1.2, this.2⟩
  rw [subDigitCtx_id _ (fun c hc => (hsplit c hc).1),
    subDigitCtx_id _ (fun c hc => (hsplit c hc).2.1),
    subDigitCtx_id _ (fun c hc => (hsplit c hc).2.2.1),
    subDigitCtx_id _ (fun c hc => (hsplit c hc).2.2.2)]

/-- On confusable-free lines, the normalizer line transform is
despecialize-collapse-trim. -/
theorem cleanLine_eq_base {l : List Char} (h : ∀ c ∈ l, confusable c = false) :
    cleanLine l = trimJS (collapseWs (despecialBy cleanAllowed l)) := by
  unfold cleanLine
  rw [subs_id]
  intro c hc
  rcases mem_stageM hc with h1 | h1
  · exact h c h1
  · rw [h1]
    exact confusable_space

/-- Characters of a normalized line come from the input, or are spaces or
substituted digits. -/
theorem mem_cleanLine {l : List Char} {c : Char} (h : c ∈ cleanLine l) :
    c ∈ l ∨ c = ' ' ∨ c = '0' ∨ c = '1' ∨ c = '5' ∨ c = '2' := by
  unfold cleanLine at h
  have h1 := mem_trimJS h
  rcases mem_subDigitCtx _ c h1 with h2 | h2
  · rcases mem_subDigitCtx _ c h2 with h3 | h3
    · rcases mem_subDigitCtx _ c h3 with h4 | h4
      · rcases mem_subDigitCtx _ c h4 with h5 | h5
        · rcases mem_stageM h5 with h6 | h6
          · exact Or.inl h6
          · exact Or.inr (Or.inl h6)
        · exact Or.inr (Or.inr (Or.inl h5))
      · exact Or.inr (Or.inr (Or.inr (Or.inl h4)))
    · exact Or.inr (Or.inr (Or.inr (Or.inr (Or.inl h3))))
  · exact Or.inr (Or.inr (Or.inr (Or.inr (Or.inr h2))))

/-- On a confusable-free line the normalizer line transform is a
projection: applying it twice equals applying it once. -/
theorem cleanLine_fixed {l : List Char} (h : ∀ c ∈ l, confusable c = false) :
    cleanLine (cleanLine l) = cleanLine l := by
  have hbase := cleanLine_eq_base h
  have hTmem : ∀ c ∈ cleanLine l, c ∈ l ∨ c = ' ' := by
    intro c hc
    rw [hbase] at hc
    exact mem_stageM (mem_trimJS hc)
  have hTconf : ∀ c ∈ cleanLine l, confusable c = false := by
    intro c hc
    rcases hTmem c hc with h1 | h1
    · exact h c h1
    · rw [h1]
      exact confusable_space
  have hTallow : ∀ c ∈ cleanLine l, cleanAllowed c = true := by
    intro c hc
    rw [hbase] at hc
    rcases mem_collapseAux false _ c (mem_trimJS hc) with h1 | h1
    · exact despecial_allowed h1
    · rw [h1]
      decide
  have hTws : ∀ c ∈ cleanLine l, isWsJS c = true → c = ' ' := by
    intro c hc hw
    rw [hbase] at hc
    exact collapse_ws_space false _ c (mem_trimJS hc) hw
  have hTchain : (cleanLine l).Chain'
      (fun x y => ¬(isWsJS x = true ∧ isWsJS y = true)) := by
    rw [hbase]
    exact chain_trimJS (fun a b hab hba => hab ⟨hba.2, hba.1⟩) (collapse_chain false _)
  rw [cleanLine_eq_base hTconf]
  rw [despecialBy_id hTallow]
  show trimJS (collapseWs (cleanLine l)) = cleanLine l
  rw [show collapseWs (cleanLine l) = cleanLine l from collapse_id _ hTws hTchain]
  rw [hbase]
  exact trimJS_idem _

/-- Segments produced by splitting on newlines contain no newline. -/
theorem splitNl_no_nl :
    ∀ (l : List Char) (m : List Char), m ∈ splitNl l → '\n' ∉ m := by
  intro l
  induction l with
  | nil =>
    intro m hm
    simp only [splitNl, List.mem_singleton] at hm
    rw [hm]
    simp
  | cons a as ih =>
    intro m hm
    unfold splitNl at hm
    split_ifs at hm with ha
    · rcases List.mem_cons.mp hm with h1 | h1
      · rw [h1]
        simp
      · exact ih m h1
    · cases hsp : splitNl as with
      | nil =>
        rw [hsp] at hm
        rcases List.mem_singleton.mp hm with rfl
        intro hc
        rcases List.mem_singleton.mp hc with h2
        exact ha h2.symm
      | cons l0 ls =>
        rw [hsp] at hm
        rcases List.mem_cons.mp hm with h1 | h1
        · rw [h1]
          intro hc
          rcases List.mem_cons.mp hc with h2 | h2
          · exact ha h2.symm
          · exact ih l0 (hsp ▸ List.mem_cons_self _ _) h2
        · exact ih m (hsp ▸ List.mem_cons_of_mem _ h1)

/-- Splitting a newline-free string gives it back as a single segment. -/
theorem splitNl_no_nl_self :
    ∀ (m : List Char), '\n' ∉ m → splitNl m = [m] := by
  intro m
  induction m with
  | nil =>
    intro _
    rfl
  | cons a as ih =>
    intro h
    have ha : ¬ a = '\n' := by
      intro e
      exact h (e ▸ List.mem_cons_self _ _)
    unfold splitNl
    rw [if_neg ha, ih (fun hc => h (List.mem_cons_of_mem a hc))]

theorem splitNl_append :
    ∀ (m : List Char) (rest : List Char), '\n' ∉ m →
      splitNl (m ++ '\n' :: rest) = m :: splitNl rest := by
  intro m
  induction m with
  | nil =>
    intro rest _
    simp [splitNl]
  | cons a as ih =>
    intro rest h
    have ha : ¬ a = '\n' := by
      intro e
      exact h (e ▸ List.mem_cons_self _ _)
    show splitNl (a :: (as ++ '\n' :: rest)) = (a :: as) :: splitNl rest
    conv_lhs => unfold splitNl
    rw [if_neg ha, ih rest (fun hc => h (List.mem_cons_of_mem a hc))]

/-- Splitting rebuilds the joined segment list exactly, provided the
segments are newline-free. -/
theorem splitNl_joinNl :
    ∀ (L : List (List Char)), L ≠ [] → (∀ m ∈ L, '\n' ∉ m) →
      splitNl (joinNl L) = L := by
  intro L
  induction L with
  | nil =>
    intro hne _
    exact absurd rfl hne
  | cons m ms ih =>
    intro _ hnl
    cases ms with
    | nil =>
      show splitNl (joinNl [m]) = [m]
      exact splitNl_no_nl_self m (hnl m (List.mem_cons_self _ _))
    | cons m' ms' =>
      show splitNl (m ++ '\n' :: joinNl (m' :: ms')) = m :: m' :: ms'
      rw [splitNl_append m _ (hnl m (List.mem_cons_self _ _))]
      rw [ih (by simp) (fun t ht => hnl t (List.mem_cons_of_mem m ht))]

/-- The normalizer is the identity on a joined list of already-normalized,
newline-free lines of length at least 3. -/
theorem cleanTextL_fixed_list (L : List (List Char))
    (hfix : ∀ m ∈ L, cleanLine m = m) (hnl : ∀ m ∈ L, '\n' ∉ m)
    (hlen : ∀ m ∈ L, 3 ≤ m.length) :
    cleanTextL (joinNl L) = joinNl L := by
  cases L with
  | nil => decide
  | cons m0 ms =>
    have hsplit : splitNl (joinNl (m0 :: ms)) = m0 :: ms :=
      splitNl_joinNl _ (by simp) hnl
    unfold cleanTextL
    rw [hsplit]
    rw [List.map_congr_left (g := id) (fun m hm => hfix m hm)]
    rw [List.map_id]
    rw [List.filter_eq_self.mpr (fun m hm => by simpa using hlen m hm)]

/-- **C4** (amended).  On inputs free of the OCR-confusable characters
`O o l I S s Z z`, `cleanText` is idempotent: the digit-context
substitutions are inert there, and the remaining strip/collapse/trim/
filter/join pipeline is a projection. -/
theorem cleanText_idempotent_without_confusables (s : String)
    (h : ∀ c ∈ s.data, confusable c = false) :
    cleanText (cleanText s) = cleanText s := by
  unfold cleanText
  congr 1
  show cleanTextL (cleanTextL s.data) = cleanTextL s.data
  have hmemF : ∀ m ∈ ((splitNl s.data).map cleanLine).filter
      (fun t => decide (3 ≤ t.length)),
      (cleanLine m = m) ∧ ('\n' ∉ m) ∧ 3 ≤ m.length := by
    intro m hm
    rcases List.mem_filter.mp hm with ⟨hm1, hm2⟩
    rcases List.mem_map.mp hm1 with ⟨m0, hm0, he⟩
    have hm0conf : ∀ c ∈ m0, confusable c = false :=
      fun c hc => h c (mem_splitNl _ m0 hm0 c hc)
    refine ⟨?_, ?_, by simpa using hm2⟩
    · rw [← he]
      exact cleanLine_fixed hm0conf
    · intro hnl
      rw [← he] at hnl
      rcases mem_cleanLine hnl with h1 | h1 | h1 | h1 | h1 | h1
      · exact splitNl_no_nl _ m0 hm0 h1
      all_goals simp at h1
  exact cleanTextL_fixed_list _ (fun m hm => (hmemF m hm).1)
    (fun m hm => (hmemF m hm).2.1) (fun m hm => (hmemF m hm).2.2)

/-- Witness for the amended C4 at a concrete confusable-free two-line
input. -/
theorem cleanText_idempotent_witness :
    (∀ c ∈ exC4w.data, confusable c = false) ∧
    cleanText (cleanText exC4w) = cleanText exC4w :=
  ⟨by decide, cleanText_idempotent_without_confusables exC4w (by decide)⟩

/-! ### Helper lemmas for the sharpening step (claim C8) -/

theorem rowcol_eq {w y x p : ℕ} (hx : x < w) :
    p = y * w + x ↔ (p / w = y ∧ p % w = x) := by
  have hw : 0 < w := by omega
  constructor
  · rintro rfl
    constructor
    · rw [Nat.mul_comm y w, Nat.mul_add_div hw, Nat.div_eq_of_lt hx, Nat.add_zero]
    · rw [Nat.mul_comm y w, Nat.mul_add_mod, Nat.mod_eq_of_lt hx]
  · rintro ⟨h1, h2⟩
    rw [← h1, ← h2]
    exact (Nat.div_add_mod' p w).symm

theorem writePixel_apply (data : ℕ → ℤ) (w y x : ℕ) (temp : ℕ → ℤ) (i : ℕ) :
    writePixel data w y x temp i =
      if i = (y * w + x) * 4 + 3 then 255
      else if i = (y * w + x) * 4 + 2 then clampByte (convAt data w y x 2)
      else if i = (y * w + x) * 4 + 1 then clampByte (convAt data w y x 1)
      else if i = (y * w + x) * 4 then clampByte (convAt data w y x 0)
      else temp i := by
  unfold writePixel
  simp only [Function.update_apply]

theorem foldRow_apply (data : ℕ → ℤ) (w y : ℕ) :
    ∀ (k s : ℕ) (temp : ℕ → ℤ) (i : ℕ), (k = 0 ∨ s + k ≤ w) →
      ((List.range' s k).foldl (fun t x => writePixel data w y x t) temp) i =
        if i / 4 / w = y ∧ s ≤ i / 4 % w ∧ i / 4 % w < s + k then
          (if i % 4 = 3 then 255
           else clampByte (convAt data w y (i / 4 % w) (i % 4)))
        else temp i := by
  intro k
  induction k with
  | zero =>
    intro s temp i _
    have hc : ¬ (i / 4 / w = y ∧ s ≤ i / 4 % w ∧ i / 4 % w < s + 0) := by omega
    rw [if_neg hc]
    rfl
  | succ k ih =>
    intro s temp i hs
    have hsw : s + (k + 1) ≤ w := by omega
    have hxw : s < w := by omega
    rw [List.range'_succ, List.foldl_cons,
      ih (s + 1) (writePixel data w y s temp) i (by omega)]
    by_cases h1 : i / 4 / w = y ∧ s + 1 ≤ i / 4 % w ∧ i / 4 % w < s + 1 + k
    · have hc : i / 4 / w = y ∧ s ≤ i / 4 % w ∧ i / 4 % w < s + (k + 1) :=
        ⟨h1.1, by omega, by omega⟩
      rw [if_pos h1, if_pos hc]
    · rw [if_neg h1, writePixel_apply]
      by_cases h2 : i / 4 / w = y ∧ i / 4 % w = s
      · have hq : i / 4 = y * w + s := (rowcol_eq hxw).mpr h2
        rw [if_pos (⟨h2.1, by omega, by omega⟩ :
          i / 4 / w = y ∧ s ≤ i / 4 % w ∧ i / 4 % w < s + (k + 1))]
        by_cases hc3 : i % 4 = 3
        · rw [if_pos (by omega : i = (y * w + s) * 4 + 3), if_pos hc3]
        · by_cases hc2 : i % 4 = 2
          · rw [if_neg (by omega : ¬ i = (y * w + s) * 4 + 3),
              if_pos (by omega : i = (y * w + s) * 4 + 2), if_neg hc3, hc2, h2.2]
          · by_cases hc1 : i % 4 = 1
            · rw [if_neg (by omega : ¬ i = (y * w + s) * 4 + 3),
                if_neg (by omega : ¬ i = (y * w + s) * 4 + 2),
                if_pos (by omega : i = (y * w + s) * 4 + 1), if_neg hc3, hc1, h2.2]
            · have hc0 : i % 4 = 0 := by omega
              rw [if_neg (by omega : ¬ i = (y * w + s) * 4 + 3),
                if_neg (by omega : ¬ i = (y * w + s) * 4 + 2),
                if_neg (by omega : ¬ i = (y * w + s) * 4 + 1),
                if_pos (by omega : i = (y * w + s) * 4), if_neg hc3, hc0, h2.2]
      · have hne : ∀ c, c < 4 → ¬ i = (y * w + s) * 4 + c := by
          intro c hc he
        -- from the byte index, recover the pixel coordinates
          have hq : i / 4 = y * w + s := by omega
          exact h2 ((rowcol_eq hxw).mp hq)
        rw [if_neg (hne 3 (by omega)), if_neg (hne 2 (by omega)),
          if_neg (hne 1 (by omega)), if_neg ((by simpa using hne 0 (by omega)) :
            ¬ i = (y * w + s) * 4)]
        have hout : ¬ (i / 4 / w = y ∧ s ≤ i / 4 % w ∧ i / 4 % w < s + (k + 1)) := by
          intro hcon
          by_cases hcs : i / 4 % w = s
          · exact h2 ⟨hcon.1, hcs⟩
          · exact h1 ⟨hcon.1, by omega, by omega⟩
        rw [if_neg hout]

theorem foldCol_apply (data : ℕ → ℤ) (w : ℕ) :
    ∀ (k s : ℕ) (temp : ℕ → ℤ) (i : ℕ),
      ((List.range' s k).foldl (fun t y => rowPass data w y t) temp) i =
        if s ≤ i / 4 / w ∧ i / 4 / w < s + k ∧
            1 ≤ i / 4 % w ∧ i / 4 % w < 1 + (w - 2) then
          (if i % 4 = 3 then 255
           else clampByte (convAt data w (i / 4 / w) (i / 4 % w) (i % 4)))
        else temp i := by
  intro k
  induction k with
  | zero =>
    intro s temp i
    have hc : ¬ (s ≤ i / 4 / w ∧ i / 4 / w < s + 0 ∧
        1 ≤ i / 4 % w ∧ i / 4 % w < 1 + (w - 2)) := by omega
    rw [if_neg hc]
    rfl
  | succ k ih =>
    intro s temp i
    rw [List.range'_succ, List.foldl_cons, ih (s + 1) (rowPass data w s temp) i]
    by_cases h1 : s + 1 ≤ i / 4 / w ∧ i / 4 / w < s + 1 + k ∧
        1 ≤ i / 4 % w ∧ i / 4 % w < 1 + (w - 2)
    · have hc : s ≤ i / 4 / w ∧ i / 4 / w < s + (k + 1) ∧
          1 ≤ i / 4 % w ∧ i / 4 % w < 1 + (w - 2) :=
        ⟨by omega, by omega, h1.2.2.1, h1.2.2.2⟩
      rw [if_pos h1, if_pos hc]
    · rw [if_neg h1]
      unfold rowPass
      rw [foldRow_apply data w s (w - 2) 1 temp i (by omega)]
      by_cases h2 : i / 4 / w = s ∧ 1 ≤ i / 4 % w ∧ i / 4 % w < 1 + (w - 2)
      · rw [if_pos h2, if_pos (⟨by omega, by omega, h2.2.1, h2.2.2⟩ :
          s ≤ i / 4 / w ∧ i / 4 / w < s + (k + 1) ∧
            1 ≤ i / 4 % w ∧ i / 4 % w < 1 + (w - 2))]
        rw [h2.1]
      · rw [if_neg h2]
        have hout : ¬ (s ≤ i / 4 / w ∧ i / 4 / w < s + (k + 1) ∧
            1 ≤ i / 4 % w ∧ i / 4 % w < 1 + (w - 2)) := by
          intro hcon
          by_cases hcs : i / 4 / w = s
          · exact h2 ⟨hcs, hcon.2.2.1, hcon.2.2.2⟩
          · exact h1 ⟨by omega, by omega, hcon.2.2.1, hcon.2.2.2⟩
        rw [if_neg hout]

theorem sharpTemp_apply (data : ℕ → ℤ) (w h i : ℕ) :
    sharpTemp data w h i =
      if 1 ≤ i / 4 / w ∧ i / 4 / w < 1 + (h - 2) ∧
          1 ≤ i / 4 % w ∧ i / 4 % w < 1 + (w - 2) then
        (if i % 4 = 3 then 255
         else clampByte (convAt data w (i / 4 / w) (i / 4 % w) (i % 4)))
      else 0 := by
  unfold sharpTemp
  rw [foldCol_apply data w (h - 2) 1 (fun _ => 0) i]

/-- **C8** (amended).  For every byte of the image buffer: interior pixels
receive the clamped 3×3 convolution per color channel (alpha set to 255),
while every border byte — color and alpha alike — is overwritten with 0,
because the zero-initialized `temp` buffer is copied back in full.  The
border is therefore *not* left unchanged. -/
theorem applySharpening_interior_conv_border_zero
    (data : ℕ → ℤ) (w h i : ℕ) (hi : i < 4 * w * h) :
    (onBorder w h i → applySharpening data w h (4 * w * h) i = 0) ∧
    (¬ onBorder w h i → applySharpening data w h (4 * w * h) i =
      (if i % 4 = 3 then 255
       else clampByte (convAt data w (i / 4 / w) (i / 4 % w) (i % 4)))) := by
  unfold applySharpening onBorder
  rw [if_pos hi, sharpTemp_apply]
  constructor
  · intro hb
    rw [if_neg (by omega)]
  · intro hb
    rw [not_not] at hb
    rw [if_pos (by omega)]

/-- Witness for the amended C8: byte 0 of a 3×3 all-white image is on the
border and is set to 0 by the sharpening pass. -/
theorem applySharpening_witness :
    (0 : ℕ) < 4 * 3 * 3 ∧ onBorder 3 3 0 ∧
    applySharpening dataC8 3 3 (4 * 3 * 3) 0 = 0 := by
  refine ⟨by decide, by decide, ?_⟩
  exact (applySharpening_interior_conv_border_zero dataC8 3 3 0 (by decide)).1
    (by decide)

/-! ### Helper lemmas for Otsu's threshold (claim C3) -/

theorem cumW_succ (h : ℕ → ℕ) (n : ℕ) : cumW h (n + 1) = cumW h n + h n :=
  Finset.sum_range_succ h n

theorem cumS_succ (h : ℕ → ℕ) (n : ℕ) : cumS h (n + 1) = cumS h n + n * h n :=
  Finset.sum_range_succ _ n

theorem cumW_mono (h : ℕ → ℕ) {n m : ℕ} (hnm : n ≤ m) : cumW h n ≤ cumW h m :=
  Finset.sum_le_sum_of_subset (Finset.range_subset.mpr hnm)

theorem varCode_nonneg (h : ℕ → ℕ) (total sum t : ℕ) :
    0 ≤ varCode h total sum t := by
  unfold varCode
  split_ifs
  · exact le_refl 0
  · unfold otsuVariance
    have h1 : (0 : ℚ) ≤ (cumW h (t + 1) : ℚ) := Nat.cast_nonneg _
    have h2 : (0 : ℚ) ≤ ((total - cumW h (t + 1) : ℕ) : ℚ) := Nat.cast_nonneg _
    exact mul_nonneg (mul_nonneg h1 h2) (mul_self_nonneg _)

theorem otsuStep_done {h : ℕ → ℕ} {total sum : ℕ} {s : OtsuState} {i : ℕ}
    (hd : s.done = true) : otsuStep h total sum s i = s := by
  unfold otsuStep
  rw [if_pos hd]

theorem otsuStep_skip {h : ℕ → ℕ} {total sum : ℕ} {s : OtsuState} {i : ℕ}
    (hd : s.done = false) (hz : s.wB + h i = 0) :
    otsuStep h total sum s i = { s with wB := s.wB + h i } := by
  simp only [otsuStep, hd, Bool.false_eq_true, if_false, hz, if_pos]

theorem otsuStep_break {h : ℕ → ℕ} {total sum : ℕ} {s : OtsuState} {i : ℕ}
    (hd : s.done = false) (hz : ¬ s.wB + h i = 0)
    (hwf : total - (s.wB + h i) = 0) :
    otsuStep h total sum s i = { s with wB := s.wB + h i, done := true } := by
  simp only [otsuStep, hd, Bool.false_eq_true, if_false, hz, hwf, if_pos]

theorem otsuStep_update {h : ℕ → ℕ} {total sum : ℕ} {s : OtsuState} {i : ℕ}
    (hd : s.done = false) (hz : ¬ s.wB + h i = 0)
    (hwf : ¬ total - (s.wB + h i) = 0)
    (hlt : s.maxVar < otsuVariance (s.wB + h i) (total - (s.wB + h i))
      (s.sumB + i * h i) sum) :
    otsuStep h total sum s i =
      ⟨s.wB + h i, s.sumB + i * h i,
        otsuVariance (s.wB + h i) (total - (s.wB + h i)) (s.sumB + i * h i) sum,
        i, false⟩ := by
  simp only [otsuStep, hd, Bool.false_eq_true, if_false, hz, hwf, hlt, if_pos]

theorem otsuStep_keep {h : ℕ → ℕ} {total sum : ℕ} {s : OtsuState} {i : ℕ}
    (hd : s.done = false) (hz : ¬ s.wB + h i = 0)
    (hwf : ¬ total - (s.wB + h i) = 0)
    (hlt : ¬ s.maxVar < otsuVariance (s.wB + h i) (total - (s.wB + h i))
      (s.sumB + i * h i) sum) :
    otsuStep h total sum s i =
      ⟨s.wB + h i, s.sumB + i * h i, s.maxVar, s.thr, false⟩ := by
  simp only [otsuStep, hd, Bool.false_eq_true, if_false, hz, hwf, hlt]


/-- One live iteration of the Otsu loop preserves the search invariant:
the running maximum stays nonnegative, dominates every processed
threshold's variance and is attained at the recorded threshold; the
accumulators track the cumulative histogram masses while the loop is
live, and after a break every remaining threshold has variance 0. -/
theorem otsu_step_inv (h : ℕ → ℕ) (total sum n : ℕ) (s : OtsuState)
    (ih0 : 0 ≤ s.maxVar)
    (ih1 : ∀ t, t < n → varCode h total sum t ≤ s.maxVar)
    (ih2 : varCode h total sum s.thr = s.maxVar ∨ (s.maxVar = 0 ∧ s.thr = 0))
    (ih3 : s.done = false → s.wB = cumW h n ∧ s.sumB = cumS h n)
    (ih4 : s.done = true → ∀ t, n ≤ t → varCode h total sum t = 0)
    (ih5 : s.thr < n ∨ s.thr = 0) :
    0 ≤ (otsuStep h total sum s n).maxVar ∧
    (∀ t, t < n + 1 → varCode h total sum t ≤ (otsuStep h total sum s n).maxVar) ∧
    (varCode h total sum (otsuStep h total sum s n).thr =
        (otsuStep h total sum s n).maxVar ∨
      ((otsuStep h total sum s n).maxVar = 0 ∧ (otsuStep h total sum s n).thr = 0)) ∧
    ((otsuStep h total sum s n).done = false →
      (otsuStep h total sum s n).wB = cumW h (n + 1) ∧
      (otsuStep h total sum s n).sumB = cumS h (n + 1)) ∧
    ((otsuStep h total sum s n).done = true →
      ∀ t, n + 1 ≤ t → varCode h total sum t = 0) ∧
    ((otsuStep h total sum s n).thr < n + 1 ∨ (otsuStep h total sum s n).thr = 0) := by
  by_cases hdone : s.done = true
  · rw [otsuStep_done hdone]
    refine ⟨ih0, ?_, ih2, ?_, ?_, ?_⟩
    · intro t ht
      by_cases htn : t < n
      · exact ih1 t htn
      · have ht' : t = n := by omega
        rw [ht', ih4 hdone n (le_refl n)]
        exact ih0
    · intro hf
      rw [hdone] at hf
      exact Bool.noConfusion hf
    · intro _ t ht
      exact ih4 hdone t (by omega)
    · rcases ih5 with h5 | h5
      · exact Or.inl (by omega)
      · exact Or.inr h5
  · have hdf : s.done = false := by
      cases hsd : s.done
      · rfl
      · exact absurd hsd hdone
    obtain ⟨hwB, hsB⟩ := ih3 hdf
    have hwB' : s.wB + h n = cumW h (n + 1) := by
      rw [hwB, cumW_succ]
    by_cases hz : s.wB + h n = 0
    · rw [otsuStep_skip hdf hz]
      have hd' : ({ s with wB := s.wB + h n } : OtsuState).done = s.done := rfl
      refine ⟨ih0, ?_, ih2, ?_, ?_, ?_⟩
      · intro t ht
        by_cases htn : t < n
        · exact ih1 t htn
        · have ht' : t = n := by omega
          rw [ht']
          have hcz : cumW h (n + 1) = 0 := by rw [← hwB']; exact hz
          unfold varCode
          rw [if_pos (Or.inl hcz)]
          exact ih0
      · intro _
        refine ⟨hwB', ?_⟩
        show s.sumB = cumS h (n + 1)
        have hhn : h n = 0 := by omega
        rw [cumS_succ, hhn, Nat.mul_zero, Nat.add_zero]
        exact hsB
      · intro hc
        rw [hd', hdf] at hc
        exact Bool.noConfusion hc
      · show s.thr < n + 1 ∨ s.thr = 0
        rcases ih5 with h5 | h5
        · exact Or.inl (by omega)
        · exact Or.inr h5
    · by_cases hwf : total - (s.wB + h n) = 0
      · rw [otsuStep_break hdf hz hwf]
        have hzero : ∀ t, n ≤ t → varCode h total sum t = 0 := by
          intro t ht
          have hle : cumW h (n + 1) ≤ cumW h (t + 1) := cumW_mono h (by omega)
          have hwf' : total - cumW h (t + 1) = 0 := by
            rw [← hwB'] at hle
            omega
          unfold varCode
          rw [if_pos (Or.inr hwf')]
        refine ⟨ih0, ?_, ih2, ?_, ?_, ?_⟩
        · intro t ht
          by_cases htn : t < n
          · exact ih1 t htn
          · have ht' : t = n := by omega
            rw [ht', hzero n (le_refl n)]
            exact ih0
        · intro hc
          exact Bool.noConfusion hc
        · intro _ t ht
          exact hzero t (by omega)
        · show s.thr < n + 1 ∨ s.thr = 0
          rcases ih5 with h5 | h5
          · exact Or.inl (by omega)
          · exact Or.inr h5
      · have hveq : otsuVariance (s.wB + h n) (total - (s.wB + h n))
            (s.sumB + n * h n) sum = varCode h total sum n := by
          unfold varCode
          rw [if_neg (by rw [← hwB']; push_neg; exact ⟨hz, hwf⟩)]
          rw [← hwB', hsB, ← cumS_succ]
        by_cases hlt : s.maxVar < otsuVariance (s.wB + h n)
            (total - (s.wB + h n)) (s.sumB + n * h n) sum
        · rw [otsuStep_update hdf hz hwf hlt]
          refine ⟨?_, ?_, ?_, ?_, ?_, ?_⟩
          · exact le_of_lt (lt_of_le_of_lt ih0 hlt)
          · intro t ht
            show varCode h total sum t ≤ otsuVariance (s.wB + h n)
              (total - (s.wB + h n)) (s.sumB + n * h n) sum
            by_cases htn : t < n
            · exact le_of_lt (lt_of_le_of_lt (ih1 t htn) hlt)
            · have ht' : t = n := by omega
              rw [ht', ← hveq]
          · exact Or.inl hveq.symm
          · intro _
            exact ⟨hwB', by show s.sumB + n * h n = cumS h (n + 1); rw [hsB, cumS_succ]⟩
          · intro hc
            exact Bool.noConfusion hc
          · exact Or.inl (by show n < n + 1; omega)
        · rw [otsuStep_keep hdf hz hwf hlt]
          refine ⟨ih0, ?_, ih2, ?_, ?_, ?_⟩
          · intro t ht
            show varCode h total sum t ≤ s.maxVar
            by_cases htn : t < n
            · exact ih1 t htn
            · have ht' : t = n := by omega
              rw [ht', ← hveq]
              exact not_lt.mp hlt
          · intro _
            exact ⟨hwB', by show s.sumB + n * h n = cumS h (n + 1); rw [hsB, cumS_succ]⟩
          · intro hc
            exact Bool.noConfusion hc
          · show s.thr < n + 1 ∨ s.thr = 0
            rcases ih5 with h5 | h5
            · exact Or.inl (by omega)
            · exact Or.inr h5

theorem otsu_run_inv (h : ℕ → ℕ) (total sum : ℕ) (n : ℕ) :
    0 ≤ ((List.range n).foldl (otsuStep h total sum) otsuInit).maxVar ∧
    (∀ t, t < n → varCode h total sum t ≤
      ((List.range n).foldl (otsuStep h total sum) otsuInit).maxVar) ∧
    (varCode h total sum
        ((List.range n).foldl (otsuStep h total sum) otsuInit).thr =
        ((List.range n).foldl (otsuStep h total sum) otsuInit).maxVar ∨
      (((List.range n).foldl (otsuStep h total sum) otsuInit).maxVar = 0 ∧
        ((List.range n).foldl (otsuStep h total sum) otsuInit).thr = 0)) ∧
    (((List.range n).foldl (otsuStep h total sum) otsuInit).done = false →
      ((List.range n).foldl (otsuStep h total sum) otsuInit).wB = cumW h n ∧
      ((List.range n).foldl (otsuStep h total sum) otsuInit).sumB = cumS h n) ∧
    (((List.range n).foldl (otsuStep h total sum) otsuInit).done = true →
      ∀ t, n ≤ t → varCode h total sum t = 0) ∧
    (((List.range n).foldl (otsuStep h total sum) otsuInit).thr < n ∨
      ((List.range n).foldl (otsuStep h total sum) otsuInit).thr = 0) := by
  induction n with
  | zero =>
    rw [List.range_zero, List.foldl_nil]
    refine ⟨le_refl 0, fun t ht => absurd ht (by omega), Or.inr ⟨rfl, rfl⟩,
      fun _ => ⟨?_, ?_⟩, fun hc => Bool.noConfusion hc, Or.inr rfl⟩
    · show (0 : ℕ) = cumW h 0
      unfold cumW
      rw [Finset.sum_range_zero]
    · show (0 : ℕ) = cumS h 0
      unfold cumS
      rw [Finset.sum_range_zero]
  | succ n ih =>
    obtain ⟨ih0, ih1, ih2, ih3, ih4, ih5⟩ := ih
    have hfold : (List.range (n + 1)).foldl (otsuStep h total sum) otsuInit =
        otsuStep h total sum
          ((List.range n).foldl (otsuStep h total sum) otsuInit) n := by
      rw [List.range_succ, List.foldl_append, List.foldl_cons, List.foldl_nil]
    rw [hfold]
    exact otsu_step_inv h total sum n _ ih0 ih1 ih2 ih3 ih4 ih5

/-- The claim's fraction-weighted variance and the loop's count-weighted
variance differ by the positive factor `total²`. -/
theorem bcv_eq_varCode (data : List ℕ) (t : ℕ) :
    betweenClassVariance data t * ((data.length : ℚ) * (data.length : ℚ)) =
      varCode (otsuHist data) data.length (otsuSum (otsuHist data)) t := by
  unfold betweenClassVariance varCode otsuVariance
  split_ifs with hc
  · rw [zero_mul]
  · push_neg at hc
    have h1 : cumW (otsuHist data) (t + 1) ≠ 0 := hc.1
    have h2 : data.length - cumW (otsuHist data) (t + 1) ≠ 0 := hc.2
    have h3 : data.length ≠ 0 := by omega
    have q1 : ((cumW (otsuHist data) (t + 1) : ℕ) : ℚ) ≠ 0 := Nat.cast_ne_zero.mpr h1
    have q2 : ((data.length - cumW (otsuHist data) (t + 1) : ℕ) : ℚ) ≠ 0 :=
      Nat.cast_ne_zero.mpr h2
    have q3 : ((data.length : ℕ) : ℚ) ≠ 0 := Nat.cast_ne_zero.mpr h3
    field_simp
    ring

/-- **C3** (confirmed).  `calculateOtsuThreshold` returns a threshold in
0..255 whose between-class variance `wB·wF·(mB−mF)²` (with `wB`, `wF` the
background/foreground pixel fractions and `mB`, `mF` the class means,
background = pixels `≤ t`) is maximal among all candidate thresholds
0..255. -/
theorem calculateOtsuThreshold_maximizes_variance (data : List ℕ) (t : ℕ)
    (ht : t < 256) :
    betweenClassVariance data t ≤
      betweenClassVariance data (calculateOtsuThreshold data) ∧
    calculateOtsuThreshold data < 256 := by
  obtain ⟨inv0, inv1, inv2, inv3, inv4, inv5⟩ :=
    otsu_run_inv (otsuHist data) data.length (otsuSum (otsuHist data)) 256
  have hthr : calculateOtsuThreshold data =
      ((List.range 256).foldl
        (otsuStep (otsuHist data) data.length (otsuSum (otsuHist data)))
        otsuInit).thr := rfl
  have hvc : varCode (otsuHist data) data.length (otsuSum (otsuHist data)) t ≤
      varCode (otsuHist data) data.length (otsuSum (otsuHist data))
        (calculateOtsuThreshold data) := by
    rw [hthr]
    rcases inv2 with heq | ⟨hm0, _⟩
    · rw [heq]
      exact inv1 t ht
    · calc varCode (otsuHist data) data.length (otsuSum (otsuHist data)) t ≤ 0 := by
            rw [← hm0]; exact inv1 t ht
        _ ≤ _ := varCode_nonneg _ _ _ _
  have hlt : calculateOtsuThreshold data < 256 := by
    rw [hthr]
    rcases inv5 with h5 | h5
    · exact h5
    · omega
  refine ⟨?_, hlt⟩
  by_cases hlen : data.length = 0
  · have hz : ∀ u, betweenClassVariance data u = 0 := by
      intro u
      unfold betweenClassVariance
      rw [if_pos (Or.inr (by omega))]
    rw [hz t, hz _]
  · have hpos : (0 : ℚ) < (data.length : ℚ) * (data.length : ℚ) := by
      have hq : (0 : ℚ) < (data.length : ℚ) := by
        exact_mod_cast Nat.pos_of_ne_zero hlen
      exact mul_pos hq hq
    have h1 := bcv_eq_varCode data t
    have h2 := bcv_eq_varCode data (calculateOtsuThreshold data)
    rw [← h1, ← h2] at hvc
    exact (mul_le_mul_right hpos).mp hvc

/-- Witness for C3 at the concrete bimodal sample `[10, 10, 10, 200, 200]`
and candidate threshold 100. -/
theorem calculateOtsuThreshold_witness :
    (100 : ℕ) < 256 ∧
    betweenClassVariance dataC3 100 ≤
      betweenClassVariance dataC3 (calculateOtsuThreshold dataC3) ∧
    calculateOtsuThreshold dataC3 < 256 :=
  ⟨by decide, (calculateOtsuThreshold_maximizes_variance dataC3 100 (by decide)).1,
    (calculateOtsuThreshold_maximizes_variance dataC3 100 (by decide)).2⟩
